import Mathlib

/-!
Verification of the nydus server and the nydus-protocol codec.

Strings are modelled as `List Char` (JavaScript strings indexed by code
points; the inputs of interest contain no lone surrogates, which `Char`
cannot represent anyway).  Functions that may throw in JavaScript are
modelled with `Option` / an explicit `thrown` result.
-/

namespace Nydus

/-! ### JavaScript primitives used by the codec -/

/-- The characters treated as whitespace by JavaScript `Number` conversion
(`StrWhiteSpaceChar`): these make `+str[0]` evaluate to `0` rather than
`NaN` when `str[0]` is such a character. -/
def jsWhitespace : List Char :=
  [Char.ofNat 0x09, Char.ofNat 0x0A, Char.ofNat 0x0B, Char.ofNat 0x0C,
   Char.ofNat 0x0D, Char.ofNat 0x20, Char.ofNat 0xA0, Char.ofNat 0x1680,
   Char.ofNat 0x2000, Char.ofNat 0x2001, Char.ofNat 0x2002, Char.ofNat 0x2003,
   Char.ofNat 0x2004, Char.ofNat 0x2005, Char.ofNat 0x2006, Char.ofNat 0x2007,
   Char.ofNat 0x2008, Char.ofNat 0x2009, Char.ofNat 0x200A, Char.ofNat 0x2028,
   Char.ofNat 0x2029, Char.ofNat 0x202F, Char.ofNat 0x205F, Char.ofNat 0x3000,
   Char.ofNat 0xFEFF]

/-- ASCII decimal digit test (what both `+c` and the JSON number
grammar use). -/
def isDigitChar (c : Char) : Bool :=
  48 ≤ c.toNat && c.toNat ≤ 57

/-- Model of the JavaScript expression `+c` for a single-character string
`c`: an ASCII digit converts to its value, a whitespace character converts
to `0` (the empty string after trimming), anything else is `NaN`
(modelled as `none`). -/
def jsCharToNum (c : Char) : Option Nat :=
  if isDigitChar c then some (c.toNat - 48)
  else if jsWhitespace.contains c then some 0
  else none

/-- Uppercase hexadecimal digit for `n < 16` (as produced by `encodeURI`). -/
def hexDigitChar (n : Nat) : Char :=
  if n < 10 then Char.ofNat (48 + n) else Char.ofNat (55 + n)

/-- Lowercase hexadecimal digit for `n < 16` (as produced by
`JSON.stringify` unicode escapes). -/
def lowHexDigitChar (n : Nat) : Char :=
  if n < 10 then Char.ofNat (48 + n) else Char.ofNat (87 + n)

/-- Value of a hexadecimal digit character, either case. -/
def hexVal (c : Char) : Option Nat :=
  if 48 ≤ c.toNat ∧ c.toNat ≤ 57 then some (c.toNat - 48)
  else if 65 ≤ c.toNat ∧ c.toNat ≤ 70 then some (c.toNat - 55)
  else if 97 ≤ c.toNat ∧ c.toNat ≤ 102 then some (c.toNat - 87)
  else none

/-- The UTF-8 bytes of the code point `n` (for `n < 0x110000`). -/
def utf8Bytes (n : Nat) : List Nat :=
  if n < 0x80 then [n]
  else if n < 0x800 then [0xC0 + n / 64, 0x80 + n % 64]
  else if n < 0x10000 then [0xE0 + n / 4096, 0x80 + n / 64 % 64, 0x80 + n % 64]
  else [0xF0 + n / 262144, 0x80 + n / 4096 % 64, 0x80 + n / 64 % 64, 0x80 + n % 64]

/-- A Unicode scalar value (what a `Char` may hold; what strict UTF-8
decoding accepts). -/
def isValidScalar (n : Nat) : Bool :=
  n < 0xD800 || (0xDFFF < n && n < 0x110000)

/-! ### `encodeURI` / `decodeURI` -/

/-- `uriReserved` plus `'#'`: the characters whose escape sequences
`decodeURI` leaves intact (and which `encodeURI` never escapes). -/
def uriReservedHash : List Char :=
  [';', '/', '?', ':', '@', '&', '=', '+', '$', ',', '#']

/-- `uriMark`: punctuation left unescaped by `encodeURI`. -/
def uriMark : List Char :=
  ['-', '_', '.', '!', '~', '*', Char.ofNat 39, '(', ')']

/-- The set of characters `encodeURI` leaves unescaped:
`uriAlpha ∪ DecimalDigit ∪ uriMark ∪ uriReserved ∪ {#}`. -/
def uriUnescaped (c : Char) : Bool :=
  (65 ≤ c.toNat && c.toNat ≤ 90) || (97 ≤ c.toNat && c.toNat ≤ 122) ||
    (48 ≤ c.toNat && c.toNat ≤ 57) || uriMark.contains c || uriReservedHash.contains c

/-- `%XX` escape (uppercase) of the byte `b`. -/
def byteHex (b : Nat) : List Char :=
  ['%', hexDigitChar (b / 16), hexDigitChar (b % 16)]

/-- Model of `encodeURI` applied to one character: unescaped characters
pass through, others become the `%XX` escapes of their UTF-8 bytes. -/
def encodeURIChar (c : Char) : List Char :=
  if uriUnescaped c then [c] else ((utf8Bytes c.toNat).map byteHex).flatten

/-- Model of `encodeURI`. -/
def encodeURIM (s : List Char) : List Char :=
  (s.map encodeURIChar).flatten

/-- Read one `%XX` escape from the head of the input, returning the byte
value and the remaining characters. -/
def readEscByte : List Char → Option (Nat × List Char)
  | '%' :: h1 :: h2 :: rest =>
    match hexVal h1, hexVal h2 with
    | some a, some b => some (16 * a + b, rest)
    | _, _ => none
  | _ => none

/-- Read `k` continuation-byte escapes (`%XX` with `0x80 ≤ XX < 0xC0`). -/
def readConts : Nat → List Char → Option (List Nat × List Char)
  | 0, l => some ([], l)
  | k + 1, l =>
    match readEscByte l with
    | some (b, r) =>
      if 0x80 ≤ b ∧ b < 0xC0 then
        match readConts k r with
        | some (bs, r2) => some (b :: bs, r2)
        | none => none
      else none
    | none => none

/-- Assemble a code point from a UTF-8 lead byte and its continuations. -/
def assembleUtf8 (b0 : Nat) (bs : List Nat) : Nat :=
  bs.foldl (fun acc b => acc * 64 + (b - 0x80))
    (b0 - (if b0 < 0xE0 then 0xC0 else if b0 < 0xF0 then 0xE0 else 0xF0))

/-- Decode a multi-byte UTF-8 sequence: read `k` continuation escapes,
assemble the code point, and validate strictly (the re-encoding check
rejects overlong forms; only scalar values are accepted). -/
def decodeEscBytes (b0 k : Nat) (rest : List Char) : Option (List Char × List Char) :=
  match readConts k rest with
  | none => none
  | some (bs, rest2) =>
    if isValidScalar (assembleUtf8 b0 bs) ∧ utf8Bytes (assembleUtf8 b0 bs) = b0 :: bs then
      some ([Char.ofNat (assembleUtf8 b0 bs)], rest2)
    else none

/-- Case split of `decodeURI` on the first escaped byte `b0` (`h1`, `h2`
are the original hex digit characters, preserved verbatim when the byte
is a reserved character): ASCII bytes stand alone, continuation bytes in
lead position throw, and lead bytes determine the continuation count. -/
def decodeEscCont (b0 : Nat) (h1 h2 : Char) (rest : List Char) :
    Option (List Char × List Char) :=
  if b0 < 0x80 then
    if uriReservedHash.contains (Char.ofNat b0) then some (['%', h1, h2], rest)
    else some ([Char.ofNat b0], rest)
  else if b0 < 0xC0 then none
  else if b0 < 0xE0 then decodeEscBytes b0 1 rest
  else if b0 < 0xF0 then decodeEscBytes b0 2 rest
  else if b0 < 0xF8 then decodeEscBytes b0 3 rest
  else none

/-- Decode one escape group (input must start with `'%'`).  Returns the
output characters and the remaining input, or `none` when `decodeURI`
would throw `URIError`. -/
def decodeEscGroup : List Char → Option (List Char × List Char)
  | '%' :: h1 :: h2 :: rest =>
    (match hexVal h1, hexVal h2 with
     | some a, some b => decodeEscCont (16 * a + b) h1 h2 rest
     | _, _ => none)
  | _ => none

/-- Main `decodeURI` loop; the fuel is an upper bound on the number of
groups (each group consumes at least one character, so the input length
suffices). -/
def decodeURIAux (fuel : Nat) (l : List Char) : Option (List Char) :=
  match l with
  | [] => some []
  | c :: rest =>
    match fuel with
    | 0 => none
    | f + 1 =>
      if c = '%' then
        match decodeEscGroup (c :: rest) with
        | none => none
        | some (out, rest2) =>
          match decodeURIAux f rest2 with
          | some tail => some (out ++ tail)
          | none => none
      else
        match decodeURIAux f rest with
        | some tail => some (c :: tail)
        | none => none

/-- Model of `decodeURI`; `none` models a thrown `URIError`. -/
def decodeURIM (s : List Char) : Option (List Char) :=
  decodeURIAux s.length s

/-! ### JSON values

`JSON.stringify` / `JSON.parse` are modelled on the JSON-expressible
values whose numbers are integers (floating-point formatting is outside
the model; the protocol and the tests only exchange integral numbers). -/

inductive Json where
  | jnull : Json
  | jbool (b : Bool) : Json
  | jnum (n : Int) : Json
  | jstr (s : List Char) : Json
  | jarr (elems : List Json) : Json
  | jobj (members : List (List Char × Json)) : Json

/-- Decimal digits of `n`, most significant first. -/
def natDigits (n : Nat) : List Char :=
  if h : n < 10 then [Char.ofNat (48 + n)]
  else natDigits (n / 10) ++ [Char.ofNat (48 + n % 10)]
decreasing_by exact Nat.div_lt_self (by omega) (by omega)

/-- Decimal notation of an integer, as `JSON.stringify` renders it. -/
def intChars : Int → List Char
  | Int.ofNat m => natDigits m
  | Int.negSucc m => '-' :: natDigits (m + 1)

/-- The escape `JSON.stringify` applies to one string character:
`"`, `\`, the named control escapes, `\u00xx` for other control
characters, everything else verbatim. -/
def escSeq (c : Char) : List Char :=
  if c = '"' then ['\\', '"']
  else if c = '\\' then ['\\', '\\']
  else if c.toNat = 8 then ['\\', 'b']
  else if c.toNat = 12 then ['\\', 'f']
  else if c.toNat = 10 then ['\\', 'n']
  else if c.toNat = 13 then ['\\', 'r']
  else if c.toNat = 9 then ['\\', 't']
  else if c.toNat < 0x20 then
    ['\\', 'u', '0', '0', lowHexDigitChar (c.toNat / 16), lowHexDigitChar (c.toNat % 16)]
  else [c]

/-- A JSON string literal: quoted and escaped. -/
def quoteStr (s : List Char) : List Char :=
  '"' :: ((s.map escSeq).flatten ++ ['"'])

mutual

/-- Model of `JSON.stringify` on the integer fragment. -/
def stringifyJ : Json → List Char
  | Json.jnull => ['n', 'u', 'l', 'l']
  | Json.jbool true => ['t', 'r', 'u', 'e']
  | Json.jbool false => ['f', 'a', 'l', 's', 'e']
  | Json.jnum n => intChars n
  | Json.jstr s => quoteStr s
  | Json.jarr es => '[' :: (stringifyElems es ++ [']'])
  | Json.jobj ms => '{' :: (stringifyMembers ms ++ ['}'])

/-- Comma-separated serialization of array elements. -/
def stringifyElems : List Json → List Char
  | [] => []
  | [e] => stringifyJ e
  | e :: es => stringifyJ e ++ ',' :: stringifyElems es

/-- Comma-separated serialization of object members. -/
def stringifyMembers : List (List Char × Json) → List Char
  | [] => []
  | [(k, v)] => quoteStr k ++ ':' :: stringifyJ v
  | (k, v) :: ms => quoteStr k ++ ':' :: stringifyJ v ++ ',' :: stringifyMembers ms

end

/-! ### JSON parsing -/

/-- JSON insignificant whitespace. -/
def jsonWs (c : Char) : Bool :=
  c.toNat = 0x20 || c.toNat = 0x09 || c.toNat = 0x0A || c.toNat = 0x0D

/-- Drop leading JSON whitespace. -/
def skipWs : List Char → List Char
  | c :: rest => if jsonWs c then skipWs rest else c :: rest
  | [] => []

/-- Consume a run of decimal digits, accumulating their value. -/
def readDigits : List Char → Nat → Nat × List Char
  | c :: rest, acc =>
    if isDigitChar c then readDigits rest (acc * 10 + (c.toNat - 48))
    else (acc, c :: rest)
  | [], acc => (acc, [])

/-- Parse the body of a string literal (after the opening quote), up to
and including the closing quote. -/
def readStr : List Char → Option (List Char × List Char)
  | [] => none
  | c :: rest =>
    if c = '"' then some ([], rest)
    else if c = '\\' then
      match rest with
      | [] => none
      | e :: rest1 =>
        if e = '"' then (readStr rest1).map (fun p => ('"' :: p.1, p.2))
        else if e = '\\' then (readStr rest1).map (fun p => ('\\' :: p.1, p.2))
        else if e = '/' then (readStr rest1).map (fun p => ('/' :: p.1, p.2))
        else if e = 'b' then (readStr rest1).map (fun p => (Char.ofNat 8 :: p.1, p.2))
        else if e = 'f' then (readStr rest1).map (fun p => (Char.ofNat 12 :: p.1, p.2))
        else if e = 'n' then (readStr rest1).map (fun p => (Char.ofNat 10 :: p.1, p.2))
        else if e = 'r' then (readStr rest1).map (fun p => (Char.ofNat 13 :: p.1, p.2))
        else if e = 't' then (readStr rest1).map (fun p => (Char.ofNat 9 :: p.1, p.2))
        else if e = 'u' then
          match rest1 with
          | h1 :: h2 :: h3 :: h4 :: rest2 =>
            (match hexVal h1, hexVal h2, hexVal h3, hexVal h4 with
             | some a, some b, some c, some d =>
               (readStr rest2).map
                 (fun p => (Char.ofNat (((a * 16 + b) * 16 + c) * 16 + d) :: p.1, p.2))
             | _, _, _, _ => none)
          | _ => none
        else none
    else if c.toNat < 0x20 then none
    else (readStr rest).map (fun p => (c :: p.1, p.2))

/-- Final step of number parsing: reject a following fraction or
exponent (outside the integer fragment), apply the sign. -/
def finishNum (neg : Bool) (v : Nat) (rest : List Char) : Option (Int × List Char) :=
  match rest with
  | d :: _ =>
    if d = '.' || d = 'e' || d = 'E' then none
    else some (if neg then -(v : Int) else (v : Int), rest)
  | [] => some (if neg then -(v : Int) else (v : Int), [])

/-- Parse the digit run of a number (after the optional minus sign). -/
def numFrom (neg : Bool) (l1 : List Char) : Option (Int × List Char) :=
  match l1 with
  | c1 :: _ =>
    if isDigitChar c1 then
      finishNum neg (readDigits l1 0).1 (readDigits l1 0).2
    else none
  | [] => none

/-- Parse a JSON number (integer fragment: an optional minus sign and a
digit run; a fraction or exponent makes the parse fail). -/
def readNum : List Char → Option (Int × List Char)
  | [] => none
  | c :: r => if c = '-' then numFrom true r else numFrom false (c :: r)

mutual

/-- Recursive-descent JSON value parser; the fuel bounds the nesting of
recursive calls. -/
def parseVal (f : Nat) (l : List Char) : Option (Json × List Char) :=
  match f with
  | 0 => none
  | f + 1 =>
    match skipWs l with
    | [] => none
    | c :: r =>
      if c = 'n' then
        match r with
        | 'u' :: 'l' :: 'l' :: r2 => some (Json.jnull, r2)
        | _ => none
      else if c = 't' then
        match r with
        | 'r' :: 'u' :: 'e' :: r2 => some (Json.jbool true, r2)
        | _ => none
      else if c = 'f' then
        match r with
        | 'a' :: 'l' :: 's' :: 'e' :: r2 => some (Json.jbool false, r2)
        | _ => none
      else if c = '"' then (readStr r).map (fun p => (Json.jstr p.1, p.2))
      else if c = '[' then
        match skipWs r with
        | [] => none
        | c2 :: r2 =>
          if c2 = ']' then some (Json.jarr [], r2)
          else
            match parseElemsM f (c2 :: r2) with
            | some (es, r3) => some (Json.jarr es, r3)
            | none => none
      else if c = '{' then
        match skipWs r with
        | [] => none
        | c2 :: r2 =>
          if c2 = '}' then some (Json.jobj [], r2)
          else
            match parseMembersM f (c2 :: r2) with
            | some (ms, r3) => some (Json.jobj ms, r3)
            | none => none
      else (readNum (c :: r)).map (fun p => (Json.jnum p.1, p.2))

/-- Parse one or more comma-separated array elements and the closing
bracket. -/
def parseElemsM (f : Nat) (l : List Char) : Option (List Json × List Char) :=
  match f with
  | 0 => none
  | f + 1 =>
    match parseVal f l with
    | none => none
    | some (v, r) =>
      match skipWs r with
      | [] => none
      | c :: r2 =>
        if c = ',' then
          match parseElemsM f r2 with
          | some (vs, r3) => some (v :: vs, r3)
          | none => none
        else if c = ']' then some ([v], r2)
        else none

/-- Parse one or more comma-separated object members and the closing
brace. -/
def parseMembersM (f : Nat) (l : List Char) : Option (List (List Char × Json) × List Char) :=
  match f with
  | 0 => none
  | f + 1 =>
    match skipWs l with
    | [] => none
    | c :: r =>
      if c = '"' then
        match readStr r with
        | none => none
        | some (k, r1) =>
          match skipWs r1 with
          | [] => none
          | c1 :: r2 =>
            if c1 = ':' then
              match parseVal f r2 with
              | none => none
              | some (v, r3) =>
                match skipWs r3 with
                | [] => none
                | c2 :: r4 =>
                  if c2 = ',' then
                    match parseMembersM f r4 with
                    | some (ms, r5) => some ((k, v) :: ms, r5)
                    | none => none
                  else if c2 = '}' then some ([(k, v)], r4)
                  else none
            else none
      else none

end

/-- Model of the codec's `tryParse` (`JSON.parse` wrapped in try/catch):
`none` is the `JSON_ERROR` sentinel. -/
def tryParse (s : List Char) : Option Json :=
  match parseVal (s.length + 1) s with
  | some (v, rest) => if skipWs rest = [] then some v else none
  | none => none

/-- The characters that can begin a JSON value once insignificant
whitespace is skipped: an object, array, string, one of the three
literals, or a number. -/
def jsonValueStart (c : Char) : Bool :=
  c = '{' || c = '[' || c = '"' || c = 't' || c = 'f' || c = 'n' || c = '-' || isDigitChar c

/-- A body that `JSON.parse` rejects already at its first significant
character: only whitespace, or a first character that cannot begin any
JSON value.  On these bodies the modelled parser provably coincides
with `JSON.parse` (both reject).  The model's integer-fragment JSON
does not decide validity of bodies that begin like a value (fractions,
exponents, leading zeros, string escapes), so the invalid-JSON
validation rule is stated over this fragment. -/
def badJsonStart (body : List Char) : Bool :=
  match skipWs body with
  | [] => true
  | c :: _ => !jsonValueStart c

/-! ### The nydus-protocol frame codec -/

/-- Outcome of the header scanning loops in `decode`: the loop either
breaks at a separator (having consumed the section before it), trips the
length guard, or runs off the end of the string. -/
inductive ScanRes where
  | found (consumed : List Char) (sep : Char) (rest : List Char) : ScanRes
  | tooLong : ScanRes
  | ended : ScanRes
deriving DecidableEq

/-- Stop characters of the id scanning loop. -/
def isIdStop (c : Char) : Bool := c = '~' || c = '|'

/-- Stop character of the path scanning loop. -/
def isPipeChar (c : Char) : Bool := c = '|'

/-- The scanning loop of `decode`: advance until a stop character,
returning the consumed section, the stop character and the remainder.
The budget is the number of section characters that may be consumed;
the source checks `i - begin > limit` after the separator test, so a
separator arriving just after a full budget still succeeds (this is why
ids of 33 characters and encoded paths of 1025 characters are accepted:
the budgets are 33 and 1025, one more than the documented 32 and 1024). -/
def scanTo (stop : Char → Bool) (budget : Nat) (l : List Char) : ScanRes :=
  match l with
  | [] => ScanRes.ended
  | c :: rest =>
    if stop c then ScanRes.found [] c rest
    else
      match budget with
      | 0 => ScanRes.tooLong
      | b + 1 =>
        match scanTo stop b rest with
        | ScanRes.found acc sep r2 => ScanRes.found (c :: acc) sep r2
        | r => r

/-- Result of `decode`: either the message object `{type, id, path, data}`
(which is also how the `parserError` sentinel `{type: 11}` is shaped,
with the other fields absent), or an uncaught exception. -/
inductive DRes where
  | thrown : DRes
  | msg (type : Nat) (id : Option (List Char)) (path : Option (List Char))
      (data : Option Json) : DRes

/-- The `parserError` sentinel `{type: PARSER_ERROR}` with
`PARSER_ERROR = 11`. -/
def parserError : DRes := DRes.msg 11 none none none

/-- `data !== protocolVersion` with `protocolVersion = 3` (strict
equality against the number 3). -/
def isProtocolVersion : Option Json → Bool
  | some (Json.jnum (Int.ofNat 3)) => true
  | _ => false

/-- The per-type `validate` step of `decode`.  Types are
`0 = WELCOME, 1 = INVOKE, 2 = RESULT, 3 = ERROR, 4 = PUBLISH`; the
`switch` has no default case, so any other type value falls through to
the plain message object. -/
def validate (type : Nat) (id path : Option (List Char)) (data : Option Json) : DRes :=
  match type with
  | 0 =>
    if id ≠ none ∨ path ≠ none then parserError
    else if ¬ isProtocolVersion data then parserError
    else DRes.msg 0 id path data
  | 1 =>
    if id = none ∨ path = none then parserError
    else DRes.msg 1 id path data
  | 2 =>
    if id = none then parserError
    else if path ≠ none then parserError
    else DRes.msg 2 id path data
  | 3 =>
    if id = none then parserError
    else if path ≠ none then parserError
    else DRes.msg 3 id path data
  | 4 =>
    if id ≠ none then parserError
    else if path = none then parserError
    else DRes.msg 4 id path data
  | t => DRes.msg t id path data

/-- Tail of `decode` after the `'|'` separator has been consumed: an
empty remainder leaves `data` undefined, otherwise the body must parse
as JSON. -/
def finishBody (type : Nat) (id path : Option (List Char)) (body : List Char) : DRes :=
  if body = [] then validate type id path none
  else
    match tryParse body with
    | none => parserError
    | some j => validate type id path (some j)

/-- Continuation of `decode` after the optional id section: `sep` is the
character at `i - 1` (the id's terminator, or `str[1]` when no id was
present).  A `'~'` starts the path section, whose text is passed through
`decodeURI` — which can throw (`DRes.thrown`). -/
def afterHeader (type : Nat) (id : Option (List Char)) (sep : Char) (rest : List Char) : DRes :=
  if sep = '~' then
    match scanTo isPipeChar 1025 rest with
    | ScanRes.found pathc _ rest2 =>
      (match decodeURIM pathc with
       | none => DRes.thrown
       | some p => if p = [] then parserError else finishBody type id (some p) rest2)
    | _ => parserError
  else if sep = '|' then finishBody type id none rest
  else parserError

/-- Model of the nydus-protocol `decode` function. -/
def decodeM (s : List Char) : DRes :=
  if s.length < 2 then parserError
  else
    match s with
    | c0 :: c1 :: rest =>
      (match jsCharToNum c0 with
       | none => parserError
       | some t =>
         if 4 < t then parserError
         else if c1 = '$' then
           match scanTo isIdStop 33 rest with
           | ScanRes.found idc sep rest2 =>
             if idc = [] then parserError else afterHeader t (some idc) sep rest2
           | _ => parserError
         else afterHeader t none c1 rest)
    | _ => parserError

/-- Model of the nydus-protocol `encode` function:
`type$id~encodeURI(path)|body`, where the id and path sections appear
only when given and the body appears only when `data` is defined. -/
def encodeM (type : Nat) (data : Option Json) (id : Option (List Char))
    (path : Option (List Char)) : List Char :=
  natDigits type
    ++ (match id with | some i => '$' :: i | none => [])
    ++ (match path with | some p => '~' :: encodeURIM p | none => [])
    ++ '|' :: (match data with | some d => stringifyJ d | none => [])

/-- The characters that may legally follow a serialized number in the
inputs the round trip produces. -/
def numStop (rest : List Char) : Prop :=
  match rest with
  | [] => True
  | c :: _ => isDigitChar c = false ∧ c ≠ '.' ∧ c ≠ 'e' ∧ c ≠ 'E'

mutual

/-- Fuel needed by `parseVal` to parse a serialized value. -/
def jsonFuel : Json → Nat
  | Json.jnull => 1
  | Json.jbool _ => 1
  | Json.jnum _ => 1
  | Json.jstr _ => 1
  | Json.jarr es => 1 + jsonFuelElems es
  | Json.jobj ms => 1 + jsonFuelMembers ms

/-- Fuel needed by `parseElemsM` for a serialized element list. -/
def jsonFuelElems : List Json → Nat
  | [] => 0
  | v :: vs => 1 + jsonFuel v + jsonFuelElems vs

/-- Fuel needed by `parseMembersM` for a serialized member list. -/
def jsonFuelMembers : List (List Char × Json) → Nat
  | [] => 0
  | (_, v) :: ms => 1 + jsonFuel v + jsonFuelMembers ms

end

/-- What follows the first serialized element of a non-empty array. -/
def sepTail (vs : List Json) (rest : List Char) : List Char :=
  match vs with
  | [] => ']' :: rest
  | _ :: _ => ',' :: (stringifyElems vs ++ ']' :: rest)

/-- What follows the first serialized member of a non-empty object. -/
def memTail (ms : List (List Char × Json)) (rest : List Char) : List Char :=
  match ms with
  | [] => '}' :: rest
  | _ :: _ => ',' :: (stringifyMembers ms ++ '}' :: rest)

/-! ### Decoding an encoded frame -/

/-- The id alphabet `[A-Za-z0-9-]` of the protocol. -/
def idAlphabet (c : Char) : Bool :=
  (65 ≤ c.toNat && c.toNat ≤ 90) || (97 ≤ c.toNat && c.toNat ≤ 122) ||
    (48 ≤ c.toNat && c.toNat ≤ 57) || c = '-'

/-- The body section `encode` emits for the given data. -/
def bodyOf (d : Option Json) : List Char :=
  match d with
  | some dj => stringifyJ dj
  | none => []

/-- `s` consists of a type character, a `'~'` at the position where
`decode` looks for the path marker (directly after the type character,
or after a well-formed id section), and then `tail`. -/
def HeaderTilde (s tail : List Char) : Prop :=
  (∃ c0, s = c0 :: '~' :: tail)
  ∨ (∃ c0 idc, s = c0 :: '$' :: (idc ++ '~' :: tail)
      ∧ idc ≠ [] ∧ idc.length ≤ 33 ∧ ∀ c ∈ idc, isIdStop c = false)

/-- `s` consists of a complete well-formed header (type character,
optional id section, optional path section) whose `'|'` separator is
followed by `body`. -/
def HeaderBody (s body : List Char) : Prop :=
  (∃ c0, s = c0 :: '|' :: body)
  ∨ (∃ c0 idc, s = c0 :: '$' :: (idc ++ '|' :: body)
      ∧ idc ≠ [] ∧ idc.length ≤ 33 ∧ ∀ c ∈ idc, isIdStop c = false)
  ∨ (∃ c0 pathc, s = c0 :: '~' :: (pathc ++ '|' :: body)
      ∧ pathc.length ≤ 1025 ∧ ∀ c ∈ pathc, c ≠ '|')
  ∨ (∃ c0 idc pathc, s = c0 :: '$' :: (idc ++ '~' :: (pathc ++ '|' :: body))
      ∧ idc ≠ [] ∧ idc.length ≤ 33 ∧ (∀ c ∈ idc, isIdStop c = false)
      ∧ pathc.length ≤ 1025 ∧ ∀ c ∈ pathc, c ≠ '|')

/-- The amended validation rules of the wire format, as the code enforces
them: length below 2; a first character that is neither a digit nor a
JavaScript whitespace character; a type value above 4; an id section
that is empty or longer than 33 characters; a path section that is empty
or whose percent-encoded text is longer than 1025 characters; a missing
`'|'`; a nonempty body that is not valid JSON — the last rule stated for
bodies rejected at their first significant character (`badJsonStart`),
where the modelled parser and `JSON.parse` provably agree. -/
def ViolatesWire (s : List Char) : Prop :=
  s.length < 2
  ∨ (∃ c0 r, s = c0 :: r ∧ jsCharToNum c0 = none)
  ∨ (∃ c0 r t, s = c0 :: r ∧ jsCharToNum c0 = some t ∧ 4 < t)
  ∨ (∃ c0 r, s = c0 :: '$' :: r
      ∧ (r = [] ∨ ∃ sep r2, r = sep :: r2 ∧ isIdStop sep = true))
  ∨ (∃ c0 pre r, s = c0 :: '$' :: (pre ++ r) ∧ pre.length = 34
      ∧ ∀ c ∈ pre, isIdStop c = false)
  ∨ (∃ tail r2, HeaderTilde s tail ∧ tail = '|' :: r2)
  ∨ (∃ tail pre r, HeaderTilde s tail ∧ tail = pre ++ r ∧ pre.length = 1026
      ∧ ∀ c ∈ pre, c ≠ '|')
  ∨ '|' ∉ s
  ∨ (∃ body, HeaderBody s body ∧ body ≠ [] ∧ badJsonStart body = true)

/-- An optional id as the scanner accepts it after amending the length
bound: nonempty, at most 32 characters (so that the round trip is clean
even without the off-by-one headroom), all drawn from the id alphabet. -/
def ValidId (i : Option (List Char)) : Prop :=
  ∀ ic, i = some ic → ic ≠ [] ∧ ic.length ≤ 32 ∧ ∀ c ∈ ic, idAlphabet c = true

/-- An optional path as the scanner accepts it: nonempty, with its
percent-ENCODED text no longer than the 1025-character scanning budget
(the amended bound: the source limits the encoded text, not the decoded
path). -/
def ValidPathEnc (p : Option (List Char)) : Prop :=
  ∀ pc, p = some pc → pc ≠ [] ∧ (encodeURIM pc).length ≤ 1025

/-- The per-type field constraints of `validate`: Welcome carries
neither id nor path and its body is the protocol version; Invoke
carries both; Result and Error carry only an id; Publish carries only a
path. -/
def FrameShape (t : Nat) (i p : Option (List Char)) (d : Option Json) : Prop :=
  (t = 0 ∧ i = none ∧ p = none ∧ isProtocolVersion d = true)
  ∨ (t = 1 ∧ i ≠ none ∧ p ≠ none)
  ∨ (t = 2 ∧ i ≠ none ∧ p = none)
  ∨ (t = 3 ∧ i ≠ none ∧ p = none)
  ∨ (t = 4 ∧ i = none ∧ p ≠ none)

/-! ### The server: clients, subscription registry, connection lifecycle

`NydusServer` (src/index.ts) keeps three pieces of state touched by the
claims: `clients` (an Immutable `Map<string, NydusClient>`),
`subscriptions` (an Immutable `Map<string, Set<NydusClient>>`), and each
client's own `subscriptions : Set<string>` field.  Client objects in the
registry sets are compared by `equals`/`hashCode`, which (for distinct
objects) compare the id strings, so the registry is modelled with client
ids as elements.  The Immutable maps become association lists over
`List Char` keys; Immutable's `===` no-change detection (`Map.set`
returns the same reference when the value is identical, `Set.add`/
`Set.delete` return the same reference when nothing changes, and
`Map.update` returns the same map when the updater returns the value it
was called with) becomes explicit membership tests. -/

/-- `Map.get`: the value at `k`, scanning from the front. -/
def alookup {α : Type} (k : List Char) : List (List Char × α) → Option α
  | [] => none
  | (k2, v) :: rest => if k2 = k then some v else alookup k rest

/-- `Map.set`: replace the entry at `k` or append a new one. -/
def aset {α : Type} (k : List Char) (v : α) : List (List Char × α) → List (List Char × α)
  | [] => [(k, v)]
  | (k2, v2) :: rest => if k2 = k then (k, v) :: rest else (k2, v2) :: aset k v rest

/-- `Map.delete`: drop every entry at `k`. -/
def adel {α : Type} (k : List Char) : List (List Char × α) → List (List Char × α)
  | [] => []
  | (k2, v2) :: rest => if k2 = k then adel k rest else (k2, v2) :: adel k rest

/-- `Set.add`: no-op when the element is already present. -/
def setAdd (x : List Char) (l : List (List Char)) : List (List Char) :=
  if x ∈ l then l else x :: l

/-- `Set.delete`: remove the element. -/
def setDel (x : List Char) (l : List (List Char)) : List (List Char) :=
  l.filter (fun y => y ≠ x)

/-- The server state: `clients` maps a client id to its connection
(an opaque token), `subs` is the subscription registry path → client-id
set, and `csubs` holds each client's own `subscriptions` set field. -/
structure SState where
  clients : List (List Char × Nat)
  subs : List (List Char × List (List Char))
  csubs : List (List Char × List (List Char))

/-- The empty server (constructor lines 180–181). -/
def initState : SState := ⟨[], [], []⟩

/-- `this.subscriptions.update(path, Set(), s => s.add(client))`
followed by the `newSubs === this.subscriptions` check of
`subscribeClient` (lines 248–251): `none` when nothing changed (the
client was already in the path's set). -/
def regAdd (p cid : List Char) (m : List (List Char × List (List Char))) :
    Option (List (List Char × List (List Char))) :=
  match alookup p m with
  | none => some (aset p [cid] m)
  | some s => if cid ∈ s then none else some (aset p (setAdd cid s) m)

/-- `this.subscriptions.update(path, s => s?.delete(client))` as used by
`unsubscribeClient` and `onDisconnect`: with no entry the updater
returns `undefined` (the value it was called with) and the map is
unchanged; with an entry not containing the client, `Set.delete`
returns the same set and the map is unchanged; otherwise the client is
removed, an empty set remaining in place. -/
def regDelUpd (p cid : List Char) (m : List (List Char × List (List Char))) :
    List (List Char × List (List Char)) :=
  match alookup p m with
  | none => m
  | some s => if cid ∈ s then aset p (setDel cid s) m else m

/-- The `initialData` argument of `subscribeClient`: `undefined`, a
plain defined value, or a promise-like (carrying a token naming the
pending promise). -/
inductive InitData where
  | absent : InitData
  | value (v : Json) : InitData
  | promise (pid : Nat) : InitData

/-- `NydusServer.subscribeClient` (lines 247–267), returning the new
state and the frames sent to the client at subscribe time.  When the
registry did not change the method returns early; otherwise the
client's own set gains the path, and a plain defined `initialData` is
published immediately while a promise-like one sends nothing yet. -/
def subscribeClient (cid p : List Char) (d : InitData) (st : SState) :
    SState × List (List Char) :=
  match regAdd p cid st.subs with
  | none => (st, [])
  | some subs2 =>
    let st2 : SState :=
      { st with
        subs := subs2
        csubs := aset cid (setAdd p ((alookup cid st.csubs).getD [])) st.csubs }
    match d with
    | InitData.absent => (st2, [])
    | InitData.value v => (st2, [encodeM 4 (some v) none (some p)])
    | InitData.promise _ => (st2, [])

/-- The `.then` callback `subscribeClient` registers on a promise-like
`initialData` (lines 258–262): at resolution time, send a Publish frame
iff the client is still in the path's registry set and the resolved
value is defined. -/
def promiseResolveSends (st : SState) (cid p : List Char) (result : Option Json) :
    List (List Char) :=
  match alookup p st.subs with
  | none => []
  | some s =>
    if cid ∈ s then
      match result with
      | some v => [encodeM 4 (some v) none (some p)]
      | none => []
    else []

/-- `NydusServer.unsubscribeClient` (lines 270–280): remove the pairing
via the updater (leaving whatever set results, however empty, in the
registry), and report whether a change occurred. -/
def unsubscribeClient (cid p : List Char) (st : SState) : SState × Bool :=
  match alookup p st.subs with
  | none => (st, false)
  | some s =>
    if cid ∈ s then
      ({ st with
          subs := aset p (setDel cid s) st.subs
          csubs := aset cid (setDel p ((alookup cid st.csubs).getD [])) st.csubs },
        true)
    else (st, false)

/-- `NydusServer.unsubscribeAll` (lines 285–296): drop the path from
every subscribed client's own set, then delete the registry entry. -/
def unsubscribeAll (p : List Char) (st : SState) : SState × Bool :=
  match alookup p st.subs with
  | none => (st, false)
  | some s =>
    ({ st with
        csubs := s.foldl (fun m c => aset c (setDel p ((alookup c m).getD [])) m) st.csubs
        subs := adel p st.subs },
      true)

/-- `NydusServer.onConnection` (lines 311–322): build a client from a
single `idGen()` value (modelled as the `id` argument — the source
calls the generator exactly once, with no collision check), `Map.set`
it into `clients`, and send the Welcome frame.  The fresh client's own
subscription set is empty (constructor line 39). -/
def onConnection (id : List Char) (ref : Nat) (st : SState) : SState × List (List Char) :=
  ({ st with
      clients := aset id ref st.clients
      csubs := aset id [] st.csubs },
    [encodeM 0 (some (Json.jnum 3)) none none])

/-- `NydusServer.onDisconnect` (lines 324–331): for each path in the
closing client's own set, run the delete-updater on the registry.
Nothing else changes — in particular `clients` is not touched. -/
def onDisconnect (cid : List Char) (st : SState) : SState :=
  { st with
    subs := ((alookup cid st.csubs).getD []).foldl
      (fun m p => regDelUpd p cid m) st.subs }

/-- The subscription-management operations of claim C6. -/
inductive SOp where
  | sub (cid p : List Char) (d : InitData) : SOp
  | unsub (cid p : List Char) : SOp
  | unsubAll (p : List Char) : SOp

def applyOp (st : SState) : SOp → SState
  | SOp.sub cid p d => (subscribeClient cid p d st).1
  | SOp.unsub cid p => (unsubscribeClient cid p st).1
  | SOp.unsubAll p => (unsubscribeAll p st).1

def runOps (ops : List SOp) (st : SState) : SState := ops.foldl applyOp st

/-- The bidirectional subscription invariant: a path is in a client's
own set exactly when the client is in the path's registry set. -/
def Inv (st : SState) : Prop :=
  ∀ cid p, p ∈ (alookup cid st.csubs).getD [] ↔ cid ∈ (alookup p st.subs).getD []

/-! ### The invoke error path and client identity -/

def statusKey : List Char := ['s', 't', 'a', 't', 'u', 's']

/-- `result && typeof result === 'object' && result.hasOwnProperty('status')
&& result.status === 500` (lines 358–363): only a non-null object with an
own `status` property strictly equal to the number 500 passes. -/
def is500Obj : Json → Bool
  | Json.jobj fs =>
    match alookup statusKey fs with
    | some (Json.jnum n) => n == 500
    | _ => false
  | _ => false

/-- `{ status: 500, message: STATUS_CODES[500] }` (line 367);
`STATUS_CODES[500]` is the string `Internal Server Error`. -/
def internalError500 : Json :=
  Json.jobj
    [(statusKey, Json.jnum 500),
      (['m', 'e', 's', 's', 'a', 'g', 'e'],
        Json.jstr ['I', 'n', 't', 'e', 'r', 'n', 'a', 'l', ' ', 'S', 'e', 'r', 'v', 'e', 'r',
          ' ', 'E', 'r', 'r', 'o', 'r'])]

/-- What `this.invokeErrorConverter(err, client)` did: returned a value
(modelled as JSON), or threw (the thrown value as an opaque token). -/
inductive ConvOutcome where
  | ok (result : Json) : ConvOutcome
  | threw (convErr : Nat) : ConvOutcome

/-- A signal the server emits from the invoke error path: `invokeError`
carries the original error, the client and the invoke message (named
here by its id), `error` carries the converter's own failure. -/
inductive SEmit where
  | invokeError (err : Nat) (client : List Char) (msgId : List Char) : SEmit
  | serverError (convErr : Nat) : SEmit

/-- The `.catch` handler of `NydusServer.onInvoke` (lines 354–371):
convert the error; a converted object with `status === 500` also emits
`invokeError` with the original error; a throwing converter falls back
to `{status: 500, message: STATUS_CODES[500]}` and emits `error`; either
way the client is sent `Error(result, msg.id)`.  Returns the emitted
signals and the encoded frame sent to the client. -/
def onInvokeCatch (err : Nat) (client msgId : List Char) (outcome : ConvOutcome) :
    List SEmit × List Char :=
  match outcome with
  | ConvOutcome.ok result =>
    ((if is500Obj result then [SEmit.invokeError err client msgId] else []),
      encodeM 3 (some result) (some msgId) none)
  | ConvOutcome.threw convErr =>
    ([SEmit.serverError convErr], encodeM 3 (some internalError500) (some msgId) none)

/-- A `NydusClient` as `equals`/`hashCode` see it: its identity as a JS
object (an opaque reference token) and its `id` string. -/
structure ClientObj where
  ref : Nat
  id : List Char
deriving DecidableEq

/-- `NydusClient.equals` (lines 52–54):
`other === this || (other instanceof NydusClient && other.id === this.id)`.
Both operands are client objects here, so the `instanceof` test holds. -/
def clientEquals (a b : ClientObj) : Bool := b == a || b.id == a.id

/-- The UTF-16 code units of a character, as `String.prototype.charCodeAt`
enumerates them. -/
def utf16Units (c : Char) : List Nat :=
  if c.toNat < 0x10000 then [c.toNat]
  else [0xD800 + (c.toNat - 0x10000) / 1024, 0xDC00 + (c.toNat - 0x10000) % 1024]

def codeUnits (s : List Char) : List Nat := (s.map utf16Units).flatten

/-- Reinterpret an integer as a signed 32-bit value (the effect of
JavaScript's `| 0`). -/
def int32 (n : Int) : Int :=
  if n % 4294967296 < 2147483648 then n % 4294967296 else n % 4294967296 - 4294967296

/-- One step of the hash loop: `hashed = (31 * hashed + charCodeAt(ii)) | 0`
(line 61). -/
def hashStep (h : Int) (cu : Nat) : Int := int32 (31 * h + cu)

def stringHash (s : List Char) : Int := (codeUnits s).foldl hashStep 0

/-- `((hashed >>> 1) & 0x40000000) | (hashed & 0xbfffffff)` (line 63):
on the unsigned 32-bit pattern `u` of `hashed`, `>>> 1` is division by
two, the masks and the or act on bits, and the result is read back as a
signed 32-bit value. -/
def smi (n : Int) : Int :=
  int32 ((((n % 4294967296).toNat / 2 &&& 0x40000000)
    ||| ((n % 4294967296).toNat &&& 0xbfffffff) : Nat) : Int)

/-- `NydusClient.hashCode` (lines 57–64). -/
def hashCode (c : ClientObj) : Int := smi (stringHash c.id)

/-! ### Basic lemmas: characters, hexadecimal digits, the scanning loop -/

theorem toNat_ofNat_valid {n : Nat} (h : n.isValidChar) : (Char.ofNat n).toNat = n := by
  simp [Char.ofNat, h]; rfl

theorem char_valid_nat (c : Char) :
    c.toNat < 0xD800 ∨ (0xDFFF < c.toNat ∧ c.toNat < 0x110000) := by
  rcases c.valid with h | h
  · left; exact h
  · right; exact ⟨h.1, h.2⟩

theorem char_eq_of_toNat_eq {a b : Char} (h : a.toNat = b.toNat) : a = b := by
  have := congrArg Char.ofNat h
  rwa [Char.ofNat_toNat, Char.ofNat_toNat] at this

theorem hexVal_hexDigitChar {n : Nat} (h : n < 16) : hexVal (hexDigitChar n) = some n := by
  by_cases h10 : n < 10
  · have hv : (48 + n).isValidChar := Or.inl (by omega)
    simp only [hexDigitChar, if_pos h10, hexVal, toNat_ofNat_valid hv]
    rw [if_pos (by omega)]
    congr 1
    omega
  · have hv : (55 + n).isValidChar := Or.inl (by omega)
    simp only [hexDigitChar, if_neg h10, hexVal, toNat_ofNat_valid hv]
    rw [if_neg (by omega), if_pos (by omega)]
    congr 1
    omega

theorem hexVal_lowHexDigitChar {n : Nat} (h : n < 16) : hexVal (lowHexDigitChar n) = some n := by
  by_cases h10 : n < 10
  · have hv : (48 + n).isValidChar := Or.inl (by omega)
    simp only [lowHexDigitChar, if_pos h10, hexVal, toNat_ofNat_valid hv]
    rw [if_pos (by omega)]
    congr 1
    omega
  · have hv : (87 + n).isValidChar := Or.inl (by omega)
    simp only [lowHexDigitChar, if_neg h10, hexVal, toNat_ofNat_valid hv]
    rw [if_neg (by omega), if_neg (by omega), if_pos (by omega)]
    congr 1
    omega

theorem hexDigitChar_toNat {n : Nat} (h : n < 16) :
    (hexDigitChar n).toNat = if n < 10 then 48 + n else 55 + n := by
  by_cases h10 : n < 10
  · simp only [hexDigitChar, if_pos h10]
    exact toNat_ofNat_valid (Or.inl (by omega))
  · simp only [hexDigitChar, if_neg h10]
    exact toNat_ofNat_valid (Or.inl (by omega))

theorem scanTo_found (stop : Char → Bool) (consumed : List Char) :
    ∀ (b : Nat) (sep : Char) (rest : List Char),
      consumed.length ≤ b → (∀ c ∈ consumed, stop c = false) → stop sep = true →
      scanTo stop b (consumed ++ sep :: rest) = ScanRes.found consumed sep rest := by
  induction consumed with
  | nil =>
    intro b sep rest _ _ hsep
    rw [List.nil_append, scanTo.eq_def]
    simp [hsep]
  | cons c cs ih =>
    intro b sep rest hlen hall hsep
    have hc : stop c = false := hall c (by simp)
    cases b with
    | zero => simp at hlen
    | succ b =>
      rw [List.cons_append, scanTo.eq_def]
      simp only [hc, Bool.false_eq_true, if_false]
      rw [ih b sep rest (by simpa using hlen) (fun x hx => hall x (by simp [hx])) hsep]

theorem scanTo_tooLong (stop : Char → Bool) (pre : List Char) :
    ∀ (b : Nat) (rest : List Char),
      pre.length = b + 1 → (∀ c ∈ pre, stop c = false) →
      scanTo stop b (pre ++ rest) = ScanRes.tooLong := by
  induction pre with
  | nil =>
    intro b rest h
    simp at h
  | cons c cs ih =>
    intro b rest hlen hall
    have hc : stop c = false := hall c (by simp)
    cases b with
    | zero =>
      rw [List.cons_append, scanTo.eq_def]
      simp [hc]
    | succ b =>
      rw [List.cons_append, scanTo.eq_def]
      simp only [hc, Bool.false_eq_true, if_false]
      rw [ih b rest (by simpa using hlen) (fun x hx => hall x (by simp [hx]))]

theorem scanTo_ended (stop : Char → Bool) (l : List Char) :
    ∀ b : Nat, (∀ c ∈ l, stop c = false) → l.length ≤ b →
      scanTo stop b l = ScanRes.ended := by
  induction l with
  | nil =>
    intro b _ _
    rw [scanTo.eq_def]
  | cons c cs ih =>
    intro b hall hlen
    have hc : stop c = false := hall c (by simp)
    cases b with
    | zero => simp at hlen
    | succ b =>
      rw [scanTo.eq_def]
      simp only [hc, Bool.false_eq_true, if_false]
      rw [ih b (fun x hx => hall x (by simp [hx])) (by simpa using hlen)]

theorem scanTo_noStop (stop : Char → Bool) (l : List Char) :
    ∀ b : Nat, (∀ c ∈ l, stop c = false) →
      scanTo stop b l = ScanRes.ended ∨ scanTo stop b l = ScanRes.tooLong := by
  induction l with
  | nil =>
    intro b _
    left
    rw [scanTo.eq_def]
  | cons c cs ih =>
    intro b hall
    have hc : stop c = false := hall c (by simp)
    cases b with
    | zero =>
      right
      rw [scanTo.eq_def]
      simp [hc]
    | succ b =>
      rw [scanTo.eq_def]
      simp only [hc, Bool.false_eq_true, if_false]
      rcases ih b (fun x hx => hall x (by simp [hx])) with h | h <;> simp [h]

theorem scanTo_found_inv (stop : Char → Bool) (l : List Char) :
    ∀ (b : Nat) (consumed : List Char) (sep : Char) (rest : List Char),
      scanTo stop b l = ScanRes.found consumed sep rest →
      l = consumed ++ sep :: rest ∧ stop sep = true ∧ ∀ c ∈ consumed, stop c = false := by
  induction l with
  | nil =>
    intro b consumed sep rest h
    rw [scanTo.eq_def] at h
    cases h
  | cons c cs ih =>
    intro b consumed sep rest h
    rw [scanTo.eq_def] at h
    simp only at h
    by_cases hc : stop c = true
    · rw [if_pos hc] at h
      cases h
      exact ⟨rfl, hc, by simp⟩
    · have hc2 : stop c = false := by simpa using hc
      rw [if_neg hc] at h
      cases b with
      | zero => simp only [] at h; cases h
      | succ b =>
        simp only [] at h
        cases hsc : scanTo stop b cs with
        | found acc sep2 r2 =>
          rw [hsc] at h
          simp only [] at h
          cases h
          obtain ⟨h1, h2, h3⟩ := ih b acc sep rest hsc
          refine ⟨by simp [h1], h2, ?_⟩
          intro x hx
          rcases List.mem_cons.mp hx with hx | hx
          · subst hx; exact hc2
          · exact h3 x hx
        | tooLong => rw [hsc] at h; simp only [] at h; cases h
        | ended => rw [hsc] at h; simp only [] at h; cases h

/-! ### Round trip of `decodeURI` over `encodeURI` -/

theorem reserved_unescaped {c : Char} (h : uriReservedHash.contains c = true) :
    uriUnescaped c = true := by
  simp only [uriUnescaped, h, Bool.or_true]

theorem readEscByte_byteHex {b : Nat} (hb : b < 256) (rest : List Char) :
    readEscByte (byteHex b ++ rest) = some (b, rest) := by
  simp only [byteHex, List.cons_append]
  rw [readEscByte.eq_def]
  simp only []
  rw [hexVal_hexDigitChar (by omega), hexVal_hexDigitChar (by omega)]
  simp only []
  congr 2
  omega

theorem readConts_bytes (bs : List Nat) :
    ∀ rest : List Char, (∀ b ∈ bs, 0x80 ≤ b ∧ b < 0xC0) →
      readConts bs.length ((bs.map byteHex).flatten ++ rest) = some (bs, rest) := by
  induction bs with
  | nil =>
    intro rest _
    simp [readConts]
  | cons b bs ih =>
    intro rest hall
    have hb := hall b (by simp)
    rw [List.length_cons, readConts.eq_def]
    simp only [List.map_cons, List.flatten_cons, List.append_assoc]
    rw [readEscByte_byteHex (by omega)]
    simp only []
    rw [if_pos ⟨hb.1, hb.2⟩]
    rw [ih rest (fun x hx => hall x (by simp [hx]))]

theorem decodeEscGroup_byteHex {b : Nat} (hb : b < 256) (rest : List Char) :
    decodeEscGroup (byteHex b ++ rest)
      = decodeEscCont b (hexDigitChar (b / 16)) (hexDigitChar (b % 16)) rest := by
  simp only [byteHex, List.cons_append]
  rw [decodeEscGroup.eq_def]
  simp only []
  rw [hexVal_hexDigitChar (by omega), hexVal_hexDigitChar (by omega)]
  simp only []
  congr 1
  omega

theorem decodeEscGroup_enc (c : Char) (rest : List Char) (h : uriUnescaped c = false) :
    decodeEscGroup (encodeURIChar c ++ rest) = some ([c], rest) := by
  have hval := char_valid_nat c
  have hofnat : Char.ofNat c.toNat = c := Char.ofNat_toNat c
  have henc : encodeURIChar c = ((utf8Bytes c.toNat).map byteHex).flatten := by
    simp [encodeURIChar, h]
  rcases Nat.lt_or_ge c.toNat 0x80 with h80 | h80
  · -- single escaped byte
    have hbytes : utf8Bytes c.toNat = [c.toNat] := by
      simp [utf8Bytes, h80]
    rw [henc, hbytes]
    simp only [List.map_cons, List.map_nil, List.flatten_cons, List.flatten_nil,
      List.append_nil]
    rw [decodeEscGroup_byteHex (by omega)]
    unfold decodeEscCont
    rw [if_pos h80, hofnat]
    have hres : uriReservedHash.contains c = false := by
      cases hrc : uriReservedHash.contains c
      · rfl
      · rw [reserved_unescaped hrc] at h; cases h
    rw [hres]
    simp
  · rcases Nat.lt_or_ge c.toNat 0x800 with h800 | h800
    · -- two bytes
      have hbytes : utf8Bytes c.toNat
          = [0xC0 + c.toNat / 64, 0x80 + c.toNat % 64] := by
        rw [utf8Bytes.eq_def, if_neg (by omega), if_pos (by omega)]
      rw [henc, hbytes]
      simp only [List.map_cons, List.map_nil, List.flatten_cons, List.flatten_nil,
        List.append_nil, List.append_assoc]
      rw [decodeEscGroup_byteHex (by omega)]
      unfold decodeEscCont
      rw [if_neg (by omega), if_neg (by omega), if_pos (by omega)]
      unfold decodeEscBytes
      have hconts : readConts 1 (byteHex (0x80 + c.toNat % 64) ++ rest)
          = some ([0x80 + c.toNat % 64], rest) := by
        have := readConts_bytes [0x80 + c.toNat % 64] rest (by
          intro b hb; simp at hb; omega)
        simpa using this
      rw [hconts]
      simp only []
      have hassemble : assembleUtf8 (0xC0 + c.toNat / 64) [0x80 + c.toNat % 64]
          = c.toNat := by
        simp only [assembleUtf8, List.foldl_cons, List.foldl_nil]
        rw [if_pos (by omega)]
        omega
      rw [hassemble]
      rw [if_pos ⟨by simp only [isValidScalar]; simp; omega, by rw [hbytes]⟩, hofnat]
    · rcases Nat.lt_or_ge c.toNat 0x10000 with h10000 | h10000
      · -- three bytes
        have hsur : c.toNat < 0xD800 ∨ 0xDFFF < c.toNat := by
          rcases hval with hv | hv
          · left; exact hv
          · right; exact hv.1
        have hbytes : utf8Bytes c.toNat
            = [0xE0 + c.toNat / 4096, 0x80 + c.toNat / 64 % 64, 0x80 + c.toNat % 64] := by
          rw [utf8Bytes.eq_def, if_neg (by omega), if_neg (by omega), if_pos (by omega)]
        rw [henc, hbytes]
        simp only [List.map_cons, List.map_nil, List.flatten_cons, List.flatten_nil,
          List.append_nil, List.append_assoc]
        rw [decodeEscGroup_byteHex (by omega)]
        unfold decodeEscCont
        rw [if_neg (by omega), if_neg (by omega), if_neg (by omega), if_pos (by omega)]
        unfold decodeEscBytes
        have hconts : readConts 2 (byteHex (0x80 + c.toNat / 64 % 64)
            ++ (byteHex (0x80 + c.toNat % 64) ++ rest))
            = some ([0x80 + c.toNat / 64 % 64, 0x80 + c.toNat % 64], rest) := by
          have := readConts_bytes [0x80 + c.toNat / 64 % 64, 0x80 + c.toNat % 64] rest (by
            intro b hb; simp at hb; rcases hb with hb | hb <;> omega)
          simpa using this
        rw [hconts]
        simp only []
        have hassemble : assembleUtf8 (0xE0 + c.toNat / 4096)
            [0x80 + c.toNat / 64 % 64, 0x80 + c.toNat % 64] = c.toNat := by
          simp only [assembleUtf8, List.foldl_cons, List.foldl_nil]
          rw [if_neg (by omega), if_pos (by omega)]
          omega
        rw [hassemble]
        rw [if_pos ⟨by simp only [isValidScalar]; simp; omega, by rw [hbytes]⟩, hofnat]
      · -- four bytes
        have hlt : c.toNat < 0x110000 := by
          rcases hval with hv | hv
          · omega
          · exact hv.2
        have hbytes : utf8Bytes c.toNat
            = [0xF0 + c.toNat / 262144, 0x80 + c.toNat / 4096 % 64,
               0x80 + c.toNat / 64 % 64, 0x80 + c.toNat % 64] := by
          rw [utf8Bytes.eq_def, if_neg (by omega), if_neg (by omega), if_neg (by omega)]
        rw [henc, hbytes]
        simp only [List.map_cons, List.map_nil, List.flatten_cons, List.flatten_nil,
          List.append_nil, List.append_assoc]
        rw [decodeEscGroup_byteHex (by omega)]
        unfold decodeEscCont
        rw [if_neg (by omega), if_neg (by omega), if_neg (by omega), if_neg (by omega),
          if_pos (by omega)]
        unfold decodeEscBytes
        have hconts : readConts 3 (byteHex (0x80 + c.toNat / 4096 % 64)
            ++ (byteHex (0x80 + c.toNat / 64 % 64) ++ (byteHex (0x80 + c.toNat % 64) ++ rest)))
            = some ([0x80 + c.toNat / 4096 % 64, 0x80 + c.toNat / 64 % 64,
                0x80 + c.toNat % 64], rest) := by
          have := readConts_bytes [0x80 + c.toNat / 4096 % 64, 0x80 + c.toNat / 64 % 64,
            0x80 + c.toNat % 64] rest (by
            intro b hb; simp at hb; rcases hb with hb | hb | hb <;> omega)
          simpa using this
        rw [hconts]
        simp only []
        have hassemble : assembleUtf8 (0xF0 + c.toNat / 262144)
            [0x80 + c.toNat / 4096 % 64, 0x80 + c.toNat / 64 % 64, 0x80 + c.toNat % 64]
            = c.toNat := by
          simp only [assembleUtf8, List.foldl_cons, List.foldl_nil]
          rw [if_neg (by omega), if_neg (by omega)]
          omega
        rw [hassemble]
        rw [if_pos ⟨by simp only [isValidScalar]; simp; omega, by rw [hbytes]⟩, hofnat]

theorem unescaped_ne_percent {c : Char} (h : uriUnescaped c = true) : c ≠ '%' := by
  intro hc
  subst hc
  have : uriUnescaped '%' = false := by decide
  rw [this] at h
  cases h

theorem decodeURIAux_encChar (c : Char) (rest : List Char) (f : Nat) :
    decodeURIAux (f + 1) (encodeURIChar c ++ rest)
      = match decodeURIAux f rest with
        | some tail => some (c :: tail)
        | none => none := by
  cases hu : uriUnescaped c with
  | true =>
    have henc : encodeURIChar c = [c] := by simp [encodeURIChar, hu]
    rw [henc, List.cons_append, List.nil_append, decodeURIAux.eq_def]
    simp only []
    rw [if_neg (by simpa using unescaped_ne_percent hu)]
  | false =>
    have hgrp := decodeEscGroup_enc c rest hu
    have hhead : ∃ t, encodeURIChar c ++ rest = '%' :: t := by
      have hval := char_valid_nat c
      have henc : encodeURIChar c = ((utf8Bytes c.toNat).map byteHex).flatten := by
        simp [encodeURIChar, hu]
      rcases Nat.lt_or_ge c.toNat 0x80 with h80 | h80
      · rw [henc]
        simp [utf8Bytes, h80, byteHex]
      · rcases Nat.lt_or_ge c.toNat 0x800 with h8 | h8
        · rw [henc, utf8Bytes.eq_def, if_neg (by omega), if_pos (by omega)]
          simp [byteHex]
        · rcases Nat.lt_or_ge c.toNat 0x10000 with h16 | h16
          · rw [henc, utf8Bytes.eq_def, if_neg (by omega), if_neg (by omega),
              if_pos (by omega)]
            simp [byteHex]
          · rw [henc, utf8Bytes.eq_def, if_neg (by omega), if_neg (by omega),
              if_neg (by omega)]
            simp [byteHex]
    obtain ⟨t, ht⟩ := hhead
    rw [ht, decodeURIAux.eq_def]
    simp only [if_pos rfl]
    rw [← ht, hgrp]
    simp only []
    cases decodeURIAux f rest <;> simp

theorem encodeURIChar_length_pos (c : Char) : 0 < (encodeURIChar c).length := by
  cases hu : uriUnescaped c with
  | true => simp [encodeURIChar, hu]
  | false =>
    simp only [encodeURIChar, hu, Bool.false_eq_true, if_false]
    unfold utf8Bytes
    split
    · simp [byteHex]
    · split
      · simp [byteHex]
      · split
        · simp [byteHex]
        · simp [byteHex]

theorem length_le_encodeURIM (p : List Char) : p.length ≤ (encodeURIM p).length := by
  induction p with
  | nil => simp [encodeURIM]
  | cons c cs ih =>
    simp only [encodeURIM, List.map_cons, List.flatten_cons, List.length_append,
      List.length_cons]
    have := encodeURIChar_length_pos c
    simp only [encodeURIM] at ih
    omega

theorem decodeURIAux_encodeURIM (p : List Char) :
    ∀ f : Nat, p.length ≤ f → decodeURIAux f (encodeURIM p) = some p := by
  induction p with
  | nil =>
    intro f _
    rw [show encodeURIM [] = [] from rfl, decodeURIAux.eq_def]
  | cons c cs ih =>
    intro f hlen
    cases f with
    | zero => simp at hlen
    | succ f =>
      have henc : encodeURIM (c :: cs) = encodeURIChar c ++ encodeURIM cs := by
        simp [encodeURIM]
      rw [henc, decodeURIAux_encChar, ih f (by simpa using hlen)]

/-- `decodeURI` is a left inverse of `encodeURI` (on strings of scalar
values). -/
theorem decodeURIM_encodeURIM (p : List Char) : decodeURIM (encodeURIM p) = some p :=
  decodeURIAux_encodeURIM p (encodeURIM p).length (length_le_encodeURIM p)

theorem hexDigitChar_ne_pipe {n : Nat} (h : n < 16) : hexDigitChar n ≠ '|' := by
  intro hc
  have := hexDigitChar_toNat h
  rw [hc] at this
  have hpipe : ('|').toNat = 124 := by decide
  rw [hpipe] at this
  by_cases h10 : n < 10 <;> simp [h10] at this <;> omega

theorem encodeURIM_no_pipe (p : List Char) : ∀ x ∈ encodeURIM p, x ≠ '|' := by
  intro x hx
  simp only [encodeURIM, List.mem_flatten, List.mem_map] at hx
  obtain ⟨l, ⟨c, _, hl⟩, hxl⟩ := hx
  subst hl
  cases hu : uriUnescaped c with
  | true =>
    rw [encodeURIChar, if_pos hu] at hxl
    simp at hxl
    subst hxl
    intro hc
    subst hc
    have : uriUnescaped '|' = false := by decide
    rw [this] at hu
    cases hu
  | false =>
    rw [encodeURIChar, if_neg (by simp [hu])] at hxl
    simp only [List.mem_flatten, List.mem_map] at hxl
    obtain ⟨l2, ⟨b, hb, hl2⟩, hxl2⟩ := hxl
    subst hl2
    simp only [byteHex, List.mem_cons, List.mem_singleton] at hxl2
    have hval := char_valid_nat c
    have hb256 : b < 256 := by
      revert hb
      unfold utf8Bytes
      split
      · intro hb; simp at hb; omega
      · split
        · intro hb; simp at hb; rcases hb with hb | hb <;> omega
        · split
          · intro hb; simp at hb; rcases hb with hb | hb | hb <;> omega
          · intro hb
            simp at hb
            have hlt : c.toNat < 0x110000 := by rcases hval with hv | hv; omega; exact hv.2
            rcases hb with hb | hb | hb | hb <;> omega
    rcases hxl2 with hx | hx | hx
    · subst hx; decide
    · subst hx; exact hexDigitChar_ne_pipe (by omega)
    · simp at hx
      subst hx
      exact hexDigitChar_ne_pipe (by omega)

theorem encodeURIM_ne_nil {p : List Char} (hp : p ≠ []) : encodeURIM p ≠ [] := by
  cases p with
  | nil => cases hp rfl
  | cons c cs =>
    simp only [encodeURIM, List.map_cons, List.flatten_cons, ne_eq,
      List.append_eq_nil]
    intro ⟨h1, _⟩
    have := encodeURIChar_length_pos c
    rw [h1] at this
    simp at this

/-! ### Round trip of the JSON parser over `JSON.stringify` -/

theorem skipWs_not_ws {c : Char} (h : jsonWs c = false) (r : List Char) :
    skipWs (c :: r) = c :: r := by
  rw [skipWs.eq_def]
  simp [h]

theorem natDigits_ne_nil (n : Nat) : natDigits n ≠ [] := by
  rw [natDigits.eq_def]
  split <;> simp

theorem natDigits_digits (n : Nat) : ∀ c ∈ natDigits n, isDigitChar c = true := by
  induction n using Nat.strong_induction_on with
  | _ n ih =>
    rw [natDigits.eq_def]
    by_cases h10 : n < 10
    · rw [dif_pos h10]
      intro c hc
      simp at hc
      subst hc
      simp only [isDigitChar, toNat_ofNat_valid (Or.inl (by omega : 48 + n < 0xD800))]
      simp only [Bool.and_eq_true, decide_eq_true_eq]
      omega
    · rw [dif_neg h10]
      intro c hc
      rw [List.mem_append] at hc
      rcases hc with hc | hc
      · exact ih (n / 10) (Nat.div_lt_self (by omega) (by omega)) c hc
      · simp at hc
        subst hc
        simp only [isDigitChar,
          toNat_ofNat_valid (Or.inl (by omega : 48 + n % 10 < 0xD800))]
        simp only [Bool.and_eq_true, decide_eq_true_eq]
        omega

theorem readDigits_append (ds : List Char) :
    ∀ (rest : List Char) (acc : Nat),
      (∀ c ∈ ds, isDigitChar c = true) →
      (match rest with | [] => True | c :: _ => isDigitChar c = false) →
      readDigits (ds ++ rest) acc
        = (ds.foldl (fun a c => a * 10 + (c.toNat - 48)) acc, rest) := by
  induction ds with
  | nil =>
    intro rest acc _ hrest
    cases rest with
    | nil => simp [readDigits]
    | cons c r =>
      simp only [List.nil_append, List.foldl_nil]
      rw [readDigits.eq_def]
      simp only at hrest
      simp [hrest]
  | cons d ds ih =>
    intro rest acc hall hrest
    have hd : isDigitChar d = true := hall d (by simp)
    rw [List.cons_append, readDigits.eq_def]
    simp only [hd, if_true, List.foldl_cons]
    exact ih rest _ (fun x hx => hall x (by simp [hx])) hrest

theorem foldl_natDigits (n : Nat) :
    ∀ acc : Nat, (natDigits n).foldl (fun a c => a * 10 + (c.toNat - 48)) acc
      = acc * 10 ^ (natDigits n).length + n := by
  induction n using Nat.strong_induction_on with
  | _ n ih =>
    intro acc
    rw [natDigits.eq_def]
    by_cases h10 : n < 10
    · rw [dif_pos h10]
      simp only [List.foldl_cons, List.foldl_nil, List.length_cons, List.length_nil,
        toNat_ofNat_valid (Or.inl (by omega : 48 + n < 0xD800))]
      simp
    · rw [dif_neg h10]
      rw [List.foldl_append]
      rw [ih (n / 10) (Nat.div_lt_self (by omega) (by omega)) acc]
      simp only [List.foldl_cons, List.foldl_nil, List.length_append, List.length_cons,
        List.length_nil,
        toNat_ofNat_valid (Or.inl (by omega : 48 + n % 10 < 0xD800))]
      rw [Nat.zero_add, pow_succ, ← Nat.mul_assoc]
      generalize acc * 10 ^ (natDigits (n / 10)).length = M
      omega

theorem readNum_natDigits_core (m : Nat) (rest : List Char) (hrest : numStop rest) :
    readDigits (natDigits m ++ rest) 0 = (m, rest) := by
  rw [readDigits_append (natDigits m) rest 0 (natDigits_digits m) (by
    cases rest with
    | nil => trivial
    | cons c r => exact hrest.1)]
  rw [foldl_natDigits]
  simp

theorem numFrom_natDigits (neg : Bool) (m : Nat) (rest : List Char) (hrest : numStop rest) :
    numFrom neg (natDigits m ++ rest)
      = some (if neg then -(m : Int) else (m : Int), rest) := by
  obtain ⟨d, ds, hds⟩ : ∃ d ds, natDigits m = d :: ds := by
    cases h : natDigits m with
    | nil => exact absurd h (natDigits_ne_nil m)
    | cons a b => exact ⟨a, b, rfl⟩
  have hd : isDigitChar d = true := natDigits_digits m d (by rw [hds]; simp)
  have hrd : readDigits (d :: (ds ++ rest)) 0 = (m, rest) := by
    rw [← List.cons_append, ← hds]
    exact readNum_natDigits_core m rest hrest
  rw [hds, List.cons_append, numFrom.eq_def]
  simp only []
  rw [if_pos hd, hrd]
  simp only [finishNum]
  cases rest with
  | nil => rfl
  | cons c r =>
    simp only []
    rw [if_neg (by
      simp only [Bool.or_eq_true, decide_eq_true_eq]
      push_neg
      exact ⟨⟨hrest.2.1, hrest.2.2.1⟩, hrest.2.2.2⟩)]

theorem readNum_intChars (n : Int) (rest : List Char) (hrest : numStop rest) :
    readNum (intChars n ++ rest) = some (n, rest) := by
  cases n with
  | ofNat m =>
    obtain ⟨d, ds, hds⟩ : ∃ d ds, natDigits m = d :: ds := by
      cases h : natDigits m with
      | nil => exact absurd h (natDigits_ne_nil m)
      | cons a b => exact ⟨a, b, rfl⟩
    have hd : isDigitChar d = true := natDigits_digits m d (by rw [hds]; simp)
    have hdm : d ≠ '-' := by
      intro hdm
      subst hdm
      simp only [isDigitChar] at hd
      simp at hd
    have := numFrom_natDigits false m rest hrest
    rw [show intChars (Int.ofNat m) = natDigits m from rfl, hds, List.cons_append,
      readNum.eq_def]
    simp only []
    rw [if_neg hdm, ← List.cons_append, ← hds, this]
    simp
  | negSucc m =>
    have := numFrom_natDigits true (m + 1) rest hrest
    rw [show intChars (Int.negSucc m) = '-' :: natDigits (m + 1) from rfl,
      List.cons_append, readNum.eq_def]
    simp only []
    rw [if_pos trivial, this]
    simp only [if_true]
    rw [show -((m + 1 : Nat) : Int) = Int.negSucc m from by rw [Int.negSucc_eq]; simp]

theorem readStr_quote (s : List Char) :
    ∀ rest : List Char, readStr ((s.map escSeq).flatten ++ '"' :: rest) = some (s, rest) := by
  induction s with
  | nil =>
    intro rest
    simp only [List.map_nil, List.flatten_nil, List.nil_append]
    rw [readStr.eq_def]
    simp
  | cons c cs ih =>
    intro rest
    simp only [List.map_cons, List.flatten_cons, List.append_assoc]
    by_cases hq : c = '"'
    · subst hq
      rw [show escSeq '"' = ['\\', '"'] from rfl]
      simp only [List.cons_append, List.nil_append]
      rw [readStr.eq_def]
      simp [ih rest]
    · by_cases hb : c = '\\'
      · subst hb
        rw [show escSeq '\\' = ['\\', '\\'] from rfl]
        simp only [List.cons_append, List.nil_append]
        rw [readStr.eq_def]
        simp [ih rest]
      · by_cases h8 : c.toNat = 8
        · have hesc : escSeq c = ['\\', 'b'] := by
            rw [escSeq, if_neg hq, if_neg hb, if_pos h8]
          have hofc : Char.ofNat 8 = c :=
            char_eq_of_toNat_eq (by rw [h8]; rfl)
          rw [hesc]
          simp only [List.cons_append, List.nil_append]
          rw [readStr.eq_def]
          simp [ih rest]
          exact hofc
        · by_cases h12 : c.toNat = 12
          · have hesc : escSeq c = ['\\', 'f'] := by
              rw [escSeq, if_neg hq, if_neg hb, if_neg h8, if_pos h12]
            have hofc : Char.ofNat 12 = c :=
              char_eq_of_toNat_eq (by rw [h12]; rfl)
            rw [hesc]
            simp only [List.cons_append, List.nil_append]
            rw [readStr.eq_def]
            simp [ih rest]
            exact hofc
          · by_cases h10 : c.toNat = 10
            · have hesc : escSeq c = ['\\', 'n'] := by
                rw [escSeq, if_neg hq, if_neg hb, if_neg h8, if_neg h12, if_pos h10]
              have hofc : Char.ofNat 10 = c :=
                char_eq_of_toNat_eq (by rw [h10]; rfl)
              rw [hesc]
              simp only [List.cons_append, List.nil_append]
              rw [readStr.eq_def]
              simp [ih rest]
              exact hofc
            · by_cases h13 : c.toNat = 13
              · have hesc : escSeq c = ['\\', 'r'] := by
                  rw [escSeq, if_neg hq, if_neg hb, if_neg h8, if_neg h12, if_neg h10,
                    if_pos h13]
                have hofc : Char.ofNat 13 = c :=
                  char_eq_of_toNat_eq (by rw [h13]; rfl)
                rw [hesc]
                simp only [List.cons_append, List.nil_append]
                rw [readStr.eq_def]
                simp [ih rest]
                exact hofc
              · by_cases h9 : c.toNat = 9
                · have hesc : escSeq c = ['\\', 't'] := by
                    rw [escSeq, if_neg hq, if_neg hb, if_neg h8, if_neg h12, if_neg h10,
                      if_neg h13, if_pos h9]
                  have hofc : Char.ofNat 9 = c :=
                    char_eq_of_toNat_eq (by rw [h9]; rfl)
                  rw [hesc]
                  simp only [List.cons_append, List.nil_append]
                  rw [readStr.eq_def]
                  simp [ih rest]
                  exact hofc
                · by_cases hlt : c.toNat < 0x20
                  · have hesc : escSeq c = ['\\', 'u', '0', '0',
                        lowHexDigitChar (c.toNat / 16), lowHexDigitChar (c.toNat % 16)] := by
                      rw [escSeq, if_neg hq, if_neg hb, if_neg h8, if_neg h12, if_neg h10,
                        if_neg h13, if_neg h9, if_pos hlt]
                    have hhx : hexVal (lowHexDigitChar (c.toNat / 16))
                        = some (c.toNat / 16) := hexVal_lowHexDigitChar (by omega)
                    have hhy : hexVal (lowHexDigitChar (c.toNat % 16))
                        = some (c.toNat % 16) := hexVal_lowHexDigitChar (by omega)
                    have harith : ((0 * 16 + 0) * 16 + c.toNat / 16) * 16 + c.toNat % 16
                        = c.toNat := by omega
                    have h0 : hexVal '0' = some 0 := by decide
                    rw [hesc]
                    simp only [List.cons_append, List.nil_append]
                    rw [readStr.eq_def]
                    simp [ih rest, hhx, hhy, h0]
                    rw [show c.toNat / 16 * 16 + c.toNat % 16 = c.toNat from by omega,
                      Char.ofNat_toNat]
                  · have hesc : escSeq c = [c] := by
                      rw [escSeq, if_neg hq, if_neg hb, if_neg h8, if_neg h12, if_neg h10,
                        if_neg h13, if_neg h9, if_neg hlt]
                    rw [hesc]
                    simp only [List.cons_append, List.nil_append]
                    rw [readStr.eq_def]
                    simp only []
                    rw [if_neg hq, if_neg hb, if_neg hlt, ih rest]
                    rfl

theorem jsonFuel_pos (v : Json) : 1 ≤ jsonFuel v := by
  cases v <;> simp [jsonFuel]

theorem intChars_head (n : Int) :
    ∃ d ds, intChars n = d :: ds ∧ (isDigitChar d = true ∨ d = '-') := by
  cases n with
  | ofNat m =>
    obtain ⟨d, ds, hds⟩ : ∃ d ds, natDigits m = d :: ds := by
      cases h : natDigits m with
      | nil => exact absurd h (natDigits_ne_nil m)
      | cons a b => exact ⟨a, b, rfl⟩
    exact ⟨d, ds, hds, Or.inl (natDigits_digits m d (by rw [hds]; simp))⟩
  | negSucc m => exact ⟨'-', natDigits (m + 1), rfl, Or.inr rfl⟩

theorem numHead_facts {d : Char} (h : isDigitChar d = true ∨ d = '-') :
    jsonWs d = false ∧ d ≠ 'n' ∧ d ≠ 't' ∧ d ≠ 'f' ∧ d ≠ '"' ∧ d ≠ '[' ∧ d ≠ '{' := by
  rcases h with h | h
  · have hb : 48 ≤ d.toNat ∧ d.toNat ≤ 57 := by
      simp only [isDigitChar, Bool.and_eq_true, decide_eq_true_eq] at h
      exact h
    refine ⟨by simp only [jsonWs]; simp; omega, ?_, ?_, ?_, ?_, ?_, ?_⟩ <;>
      (intro he; subst he; exact absurd h (by decide))
  · subst h
    exact ⟨by decide, by decide, by decide, by decide, by decide, by decide, by decide⟩

theorem stringify_head (v : Json) :
    ∃ c cs, stringifyJ v = c :: cs ∧ jsonWs c = false ∧ c ≠ ']' ∧ c ≠ '}' := by
  cases v with
  | jnull => exact ⟨'n', _, rfl, by decide, by decide, by decide⟩
  | jbool b =>
    cases b
    · exact ⟨'f', _, rfl, by decide, by decide, by decide⟩
    · exact ⟨'t', _, rfl, by decide, by decide, by decide⟩
  | jnum n =>
    obtain ⟨d, ds, hds, hd⟩ := intChars_head n
    refine ⟨d, ds, hds, (numHead_facts hd).1, ?_, ?_⟩ <;>
      (rcases hd with hd | hd
       · intro he
         subst he
         exact absurd hd (by decide)
       · subst hd
         decide)
  | jstr s => exact ⟨'"', _, rfl, by decide, by decide, by decide⟩
  | jarr es => exact ⟨'[', _, rfl, by decide, by decide, by decide⟩
  | jobj ms => exact ⟨'{', _, rfl, by decide, by decide, by decide⟩

mutual

/-- The parser recovers every serialized value (given enough fuel and a
follower that cannot extend a number). -/
theorem parseVal_complete : ∀ (v : Json) (rest : List Char) (f : Nat),
    jsonFuel v ≤ f → numStop rest → parseVal f (stringifyJ v ++ rest) = some (v, rest)
  | v, rest, 0, hf, hok => absurd (le_trans (jsonFuel_pos v) hf) (by omega)
  | Json.jnull, rest, f + 1, hf, hok => by
    rw [parseVal.eq_def]
    simp only []
    rw [show stringifyJ Json.jnull ++ rest = 'n' :: 'u' :: 'l' :: 'l' :: rest from rfl]
    rw [skipWs_not_ws (by decide)]
    simp
  | Json.jbool false, rest, f + 1, hf, hok => by
    rw [parseVal.eq_def]
    simp only []
    rw [show stringifyJ (Json.jbool false) ++ rest
        = 'f' :: 'a' :: 'l' :: 's' :: 'e' :: rest from rfl]
    rw [skipWs_not_ws (by decide)]
    simp
  | Json.jbool true, rest, f + 1, hf, hok => by
    rw [parseVal.eq_def]
    simp only []
    rw [show stringifyJ (Json.jbool true) ++ rest
        = 't' :: 'r' :: 'u' :: 'e' :: rest from rfl]
    rw [skipWs_not_ws (by decide)]
    simp
  | Json.jnum n, rest, f + 1, hf, hok => by
    obtain ⟨d, ds, hds, hd⟩ := intChars_head n
    obtain ⟨hws, hn, ht, hfa, hqu, hbr, hbc⟩ := numHead_facts hd
    rw [parseVal.eq_def]
    simp only []
    rw [show stringifyJ (Json.jnum n) = intChars n from rfl, hds, List.cons_append]
    rw [skipWs_not_ws hws]
    simp only []
    rw [if_neg hn, if_neg ht, if_neg hfa, if_neg hqu, if_neg hbr, if_neg hbc]
    rw [← List.cons_append, ← hds, readNum_intChars n rest hok]
    rfl
  | Json.jstr s, rest, f + 1, hf, hok => by
    rw [parseVal.eq_def]
    simp only []
    rw [show stringifyJ (Json.jstr s) ++ rest
        = '"' :: ((s.map escSeq).flatten ++ '"' :: rest) from by
      simp [stringifyJ, quoteStr]]
    rw [skipWs_not_ws (by decide)]
    simp only []
    rw [if_neg (by decide), if_neg (by decide), if_neg (by decide), if_pos trivial]
    rw [readStr_quote]
    rfl
  | Json.jarr [], rest, f + 1, hf, hok => by
    rw [parseVal.eq_def]
    simp only []
    rw [show stringifyJ (Json.jarr []) ++ rest = '[' :: ']' :: rest from rfl]
    rw [skipWs_not_ws (by decide)]
    simp only []
    rw [if_neg (by decide), if_neg (by decide), if_neg (by decide),
      if_neg (by decide), if_pos trivial]
    rw [skipWs_not_ws (by decide)]
    simp
  | Json.jarr (v :: vs), rest, f + 1, hf, hok => by
    obtain ⟨c2, cs2, hc2, hc2ws, hc2br, _⟩ := stringify_head v
    have hse : stringifyElems (v :: vs) ++ ']' :: rest
        = c2 :: (cs2 ++ sepTail vs rest) := by
      cases vs with
      | nil => simp [stringifyElems, hc2, sepTail]
      | cons v2 vs2 => simp [stringifyElems, hc2, sepTail]
    rw [parseVal.eq_def]
    simp only []
    rw [show stringifyJ (Json.jarr (v :: vs)) ++ rest
        = '[' :: (stringifyElems (v :: vs) ++ ']' :: rest) from by
      simp [stringifyJ]]
    rw [skipWs_not_ws (by decide)]
    simp only []
    rw [if_neg (by decide), if_neg (by decide), if_neg (by decide),
      if_neg (by decide), if_pos trivial]
    rw [hse, skipWs_not_ws hc2ws]
    simp only []
    rw [if_neg hc2br, ← hse]
    rw [parseElems_complete v vs rest f (by
      simp only [jsonFuel] at hf
      omega)]
  | Json.jobj [], rest, f + 1, hf, hok => by
    rw [parseVal.eq_def]
    simp only []
    rw [show stringifyJ (Json.jobj []) ++ rest = '{' :: '}' :: rest from rfl]
    rw [skipWs_not_ws (by decide)]
    simp only []
    rw [if_neg (by decide), if_neg (by decide), if_neg (by decide),
      if_neg (by decide), if_neg (by decide), if_pos trivial]
    rw [skipWs_not_ws (by decide)]
    simp
  | Json.jobj ((k, v) :: ms2), rest, f + 1, hf, hok => by
    have hsm : stringifyMembers ((k, v) :: ms2) ++ '}' :: rest
        = '"' :: (((k.map escSeq).flatten ++ ['"'])
            ++ (':' :: stringifyJ v ++ memTail ms2 rest)) := by
      cases ms2 with
      | nil => simp [stringifyMembers, quoteStr, memTail]
      | cons kv2 ms3 => simp [stringifyMembers, quoteStr, memTail]
    rw [parseVal.eq_def]
    simp only []
    rw [show stringifyJ (Json.jobj ((k, v) :: ms2)) ++ rest
        = '{' :: (stringifyMembers ((k, v) :: ms2) ++ '}' :: rest) from by
      simp [stringifyJ]]
    rw [skipWs_not_ws (by decide)]
    simp only []
    rw [if_neg (by decide), if_neg (by decide), if_neg (by decide),
      if_neg (by decide), if_neg (by decide), if_pos trivial]
    rw [hsm, skipWs_not_ws (by decide)]
    simp only []
    rw [if_neg (by decide : ¬('"' : Char) = '}'), ← hsm]
    rw [parseMembers_complete k v ms2 rest f (by
      simp only [jsonFuel] at hf
      omega)]

/-- The element parser recovers every serialized non-empty element list. -/
theorem parseElems_complete : ∀ (v : Json) (vs : List Json) (rest : List Char) (f : Nat),
    jsonFuelElems (v :: vs) ≤ f →
    parseElemsM f (stringifyElems (v :: vs) ++ ']' :: rest) = some (v :: vs, rest)
  | v, vs, rest, 0, hf => by simp [jsonFuelElems] at hf
  | v, [], rest, f + 1, hf => by
    rw [parseElemsM.eq_def]
    simp only []
    rw [show stringifyElems [v] = stringifyJ v from rfl]
    rw [parseVal_complete v (']' :: rest) f (by
      simp only [jsonFuelElems] at hf
      omega) ⟨by decide, by decide, by decide, by decide⟩]
    simp only []
    rw [skipWs_not_ws (by decide)]
    simp
  | v, v2 :: vs2, rest, f + 1, hf => by
    rw [parseElemsM.eq_def]
    simp only []
    rw [show stringifyElems (v :: v2 :: vs2) ++ ']' :: rest
        = stringifyJ v ++ ',' :: (stringifyElems (v2 :: vs2) ++ ']' :: rest) from by
      simp [stringifyElems]]
    rw [parseVal_complete v (',' :: (stringifyElems (v2 :: vs2) ++ ']' :: rest)) f (by
      simp only [jsonFuelElems] at hf
      omega) ⟨by decide, by decide, by decide, by decide⟩]
    simp only []
    rw [skipWs_not_ws (by decide)]
    simp only []
    rw [if_pos trivial]
    rw [parseElems_complete v2 vs2 rest f (by
      simp only [jsonFuelElems] at hf ⊢
      omega)]

/-- The member parser recovers every serialized non-empty member list. -/
theorem parseMembers_complete : ∀ (k : List Char) (v : Json)
    (ms : List (List Char × Json)) (rest : List Char) (f : Nat),
    jsonFuelMembers ((k, v) :: ms) ≤ f →
    parseMembersM f (stringifyMembers ((k, v) :: ms) ++ '}' :: rest)
      = some ((k, v) :: ms, rest)
  | k, v, ms, rest, 0, hf => by simp [jsonFuelMembers] at hf
  | k, v, [], rest, f + 1, hf => by
    have hsm : stringifyMembers [(k, v)] ++ '}' :: rest
        = '"' :: ((k.map escSeq).flatten
            ++ '"' :: (':' :: (stringifyJ v ++ '}' :: rest))) := by
      simp [stringifyMembers, quoteStr]
    rw [parseMembersM.eq_def]
    simp only []
    rw [hsm, skipWs_not_ws (by decide)]
    simp only []
    rw [if_pos trivial]
    rw [readStr_quote]
    simp only []
    rw [skipWs_not_ws (by decide)]
    simp only []
    rw [if_pos trivial]
    rw [parseVal_complete v ('}' :: rest) f (by
      simp only [jsonFuelMembers] at hf
      omega) ⟨by decide, by decide, by decide, by decide⟩]
    simp only []
    rw [skipWs_not_ws (by decide)]
    simp
  | k, v, (k2, v2) :: ms3, rest, f + 1, hf => by
    have hsm : stringifyMembers ((k, v) :: (k2, v2) :: ms3) ++ '}' :: rest
        = '"' :: ((k.map escSeq).flatten
            ++ '"' :: (':' :: (stringifyJ v
              ++ ',' :: (stringifyMembers ((k2, v2) :: ms3) ++ '}' :: rest)))) := by
      simp [stringifyMembers, quoteStr]
    rw [parseMembersM.eq_def]
    simp only []
    rw [hsm, skipWs_not_ws (by decide)]
    simp only []
    rw [if_pos trivial]
    rw [readStr_quote]
    simp only []
    rw [skipWs_not_ws (by decide)]
    simp only []
    rw [if_pos trivial]
    rw [parseVal_complete v (',' :: (stringifyMembers ((k2, v2) :: ms3) ++ '}' :: rest)) f (by
      simp only [jsonFuelMembers] at hf
      omega) ⟨by decide, by decide, by decide, by decide⟩]
    simp only []
    rw [skipWs_not_ws (by decide)]
    simp only []
    rw [if_pos trivial]
    rw [parseMembers_complete k2 v2 ms3 rest f (by
      simp only [jsonFuelMembers] at hf ⊢
      omega)]

end

mutual

/-- The serialization is long enough to supply the parser's fuel. -/
theorem jsonFuel_le : ∀ v : Json, jsonFuel v ≤ (stringifyJ v).length
  | Json.jnull => by simp [jsonFuel, stringifyJ]
  | Json.jbool true => by simp [jsonFuel, stringifyJ]
  | Json.jbool false => by simp [jsonFuel, stringifyJ]
  | Json.jnum n => by
    obtain ⟨d, ds, hds, _⟩ := intChars_head n
    simp [jsonFuel, stringifyJ, hds]
  | Json.jstr s => by
    simp [jsonFuel, stringifyJ, quoteStr]
  | Json.jarr es => by
    have h := jsonFuelElems_le es
    simp only [jsonFuel, stringifyJ, List.length_cons, List.length_append,
      List.length_singleton] at h ⊢
    omega
  | Json.jobj ms => by
    have h := jsonFuelMembers_le ms
    simp only [jsonFuel, stringifyJ, List.length_cons, List.length_append,
      List.length_singleton] at h ⊢
    omega

theorem jsonFuelElems_le : ∀ vs : List Json, jsonFuelElems vs ≤ (stringifyElems vs).length + 1
  | [] => by simp [jsonFuelElems]
  | [v] => by
    have h := jsonFuel_le v
    simp only [jsonFuelElems, stringifyElems]
    omega
  | v :: v2 :: vs => by
    have h1 := jsonFuel_le v
    have h2 := jsonFuelElems_le (v2 :: vs)
    simp only [jsonFuelElems, stringifyElems, List.length_append, List.length_cons] at h2 ⊢
    omega

theorem jsonFuelMembers_le : ∀ ms : List (List Char × Json),
    jsonFuelMembers ms ≤ (stringifyMembers ms).length + 1
  | [] => by simp [jsonFuelMembers]
  | [(k, v)] => by
    have h := jsonFuel_le v
    simp only [jsonFuelMembers, stringifyMembers, List.length_append, List.length_cons]
    omega
  | (k, v) :: kv2 :: ms => by
    have h1 := jsonFuel_le v
    have h2 := jsonFuelMembers_le (kv2 :: ms)
    simp only [jsonFuelMembers, stringifyMembers, List.length_append,
      List.length_cons] at h2 ⊢
    omega

end

/-- `JSON.parse` is a left inverse of `JSON.stringify` on the modelled
fragment. -/
theorem tryParse_stringify (v : Json) : tryParse (stringifyJ v) = some v := by
  unfold tryParse
  have h := parseVal_complete v [] ((stringifyJ v).length + 1)
    (le_trans (jsonFuel_le v) (by omega)) trivial
  simp only [List.append_nil] at h
  rw [h]
  rfl

theorem idAlphabet_not_stop {c : Char} (h : idAlphabet c = true) : isIdStop c = false := by
  simp only [isIdStop, Bool.or_eq_false_iff, decide_eq_false_iff_not]
  constructor <;> (intro he; subst he; revert h; decide)

theorem natDigits_small {t : Nat} (h : t < 10) : natDigits t = [Char.ofNat (48 + t)] := by
  rw [natDigits.eq_def, dif_pos h]

theorem jsCharToNum_digit {t : Nat} (h : t < 10) :
    jsCharToNum (Char.ofNat (48 + t)) = some t := by
  have hv : (48 + t).isValidChar := Or.inl (by omega)
  simp only [jsCharToNum, isDigitChar, toNat_ofNat_valid hv]
  rw [if_pos (by simp; omega)]
  congr 1
  omega

theorem finishBody_enc (t : Nat) (i p : Option (List Char)) (d : Option Json) :
    finishBody t i p (bodyOf d) = validate t i p d := by
  cases d with
  | none => simp [finishBody, bodyOf]
  | some dj =>
    obtain ⟨c, cs, hc, _, _, _⟩ := stringify_head dj
    simp only [bodyOf]
    unfold finishBody
    rw [if_neg (by rw [hc]; simp), tryParse_stringify]

theorem afterHeader_path (t : Nat) (i : Option (List Char)) (pc : List Char)
    (body : List Char) (hne : pc ≠ []) (hlen : (encodeURIM pc).length ≤ 1025) :
    afterHeader t i '~' (encodeURIM pc ++ '|' :: body) = finishBody t i (some pc) body := by
  unfold afterHeader
  rw [if_pos rfl]
  rw [scanTo_found isPipeChar (encodeURIM pc) 1025 '|' body hlen
    (fun c hc => by
      simp only [isPipeChar, decide_eq_false_iff_not]
      exact encodeURIM_no_pipe pc c hc)
    (by simp [isPipeChar])]
  simp only []
  rw [decodeURIM_encodeURIM]
  simp only []
  rw [if_neg hne]

theorem afterHeader_noPath (t : Nat) (i : Option (List Char)) (body : List Char) :
    afterHeader t i '|' body = finishBody t i none body := by
  unfold afterHeader
  rw [if_neg (by decide), if_pos rfl]

/-- Decoding an encoded frame runs the per-type `validate` step on
exactly the original fields (with the body surviving the JSON round
trip), provided the id is drawn from the id alphabet with length at most
32 and the percent-encoded path fits the scanner's 1025-character
budget. -/
theorem decodeM_encodeM (t : Nat) (ht : t ≤ 4) (d : Option Json)
    (i p : Option (List Char))
    (hi : ∀ ic, i = some ic → ic ≠ [] ∧ ic.length ≤ 32 ∧ ∀ c ∈ ic, idAlphabet c = true)
    (hp : ∀ pc, p = some pc → pc ≠ [] ∧ (encodeURIM pc).length ≤ 1025) :
    decodeM (encodeM t d i p) = validate t i p d := by
  have hd10 : t < 10 := by omega
  cases i with
  | some ic =>
    obtain ⟨hne, hlen, halpha⟩ := hi ic rfl
    have hscan : ∀ sep rest2, isIdStop sep = true →
        scanTo isIdStop 33 (ic ++ sep :: rest2) = ScanRes.found ic sep rest2 :=
      fun sep rest2 hsep =>
        scanTo_found isIdStop ic 33 sep rest2 (by omega)
          (fun c hc => idAlphabet_not_stop (halpha c hc)) hsep
    cases p with
    | some pc =>
      obtain ⟨hpne, hplen⟩ := hp pc rfl
      have henc : encodeM t d (some ic) (some pc)
          = Char.ofNat (48 + t) :: '$'
              :: (ic ++ '~' :: (encodeURIM pc ++ '|' :: bodyOf d)) := by
        simp [encodeM, natDigits_small hd10, bodyOf]
      rw [henc]
      unfold decodeM
      rw [if_neg (by simp only [List.length_cons]; omega)]
      simp only []
      rw [jsCharToNum_digit hd10]
      simp only []
      rw [if_neg (by omega), if_pos trivial,
        hscan '~' (encodeURIM pc ++ '|' :: bodyOf d) (by decide)]
      simp only []
      rw [if_neg hne, afterHeader_path t (some ic) pc (bodyOf d) hpne hplen,
        finishBody_enc]
    | none =>
      have henc : encodeM t d (some ic) none
          = Char.ofNat (48 + t) :: '$' :: (ic ++ '|' :: bodyOf d) := by
        simp [encodeM, natDigits_small hd10, bodyOf]
      rw [henc]
      unfold decodeM
      rw [if_neg (by simp only [List.length_cons]; omega)]
      simp only []
      rw [jsCharToNum_digit hd10]
      simp only []
      rw [if_neg (by omega), if_pos trivial, hscan '|' (bodyOf d) (by decide)]
      simp only []
      rw [if_neg hne, afterHeader_noPath, finishBody_enc]
  | none =>
    cases p with
    | some pc =>
      obtain ⟨hpne, hplen⟩ := hp pc rfl
      have henc : encodeM t d none (some pc)
          = Char.ofNat (48 + t) :: '~' :: (encodeURIM pc ++ '|' :: bodyOf d) := by
        simp [encodeM, natDigits_small hd10, bodyOf]
      rw [henc]
      unfold decodeM
      rw [if_neg (by simp only [List.length_cons]; omega)]
      simp only []
      rw [jsCharToNum_digit hd10]
      simp only []
      rw [if_neg (by omega), if_neg (by decide)]
      rw [afterHeader_path t none pc (bodyOf d) hpne hplen, finishBody_enc]
    | none =>
      have henc : encodeM t d none none
          = Char.ofNat (48 + t) :: '|' :: bodyOf d := by
        simp [encodeM, natDigits_small hd10, bodyOf]
      rw [henc]
      unfold decodeM
      rw [if_neg (by simp only [List.length_cons]; omega)]
      simp only []
      rw [jsCharToNum_digit hd10]
      simp only []
      rw [if_neg (by omega), if_neg (by decide)]
      rw [afterHeader_noPath, finishBody_enc]

/-! ### Rejection paths of `decode` -/

theorem decodeM_cons (c0 c1 : Char) (r : List Char) :
    decodeM (c0 :: c1 :: r)
      = match jsCharToNum c0 with
        | none => parserError
        | some t =>
          if 4 < t then parserError
          else if c1 = '$' then
            match scanTo isIdStop 33 r with
            | ScanRes.found idc sep rest2 =>
              if idc = [] then parserError else afterHeader t (some idc) sep rest2
            | _ => parserError
          else afterHeader t none c1 r := by
  unfold decodeM
  rw [if_neg (by simp only [List.length_cons]; omega)]

theorem afterHeader_emptyPath (t : Nat) (i : Option (List Char)) (r2 : List Char) :
    afterHeader t i '~' ('|' :: r2) = parserError := by
  unfold afterHeader
  rw [if_pos rfl]
  rw [show scanTo isPipeChar 1025 ('|' :: r2) = ScanRes.found [] '|' r2 from by
    rw [scanTo.eq_def]; simp [isPipeChar]]
  simp only []
  rw [show decodeURIM [] = some [] from rfl]
  simp

theorem afterHeader_longPath (t : Nat) (i : Option (List Char)) (pre r : List Char)
    (hlen : pre.length = 1026) (hno : ∀ c ∈ pre, c ≠ '|') :
    afterHeader t i '~' (pre ++ r) = parserError := by
  unfold afterHeader
  rw [if_pos rfl]
  rw [scanTo_tooLong isPipeChar pre 1025 r (by omega)
    (fun c hc => by simp only [isPipeChar, decide_eq_false_iff_not]; exact hno c hc)]

theorem afterHeader_noPipe (t : Nat) (i : Option (List Char)) (sep : Char)
    (rest : List Char) (hs : sep ≠ '|') (hr : '|' ∉ rest) :
    afterHeader t i sep rest = parserError := by
  by_cases ht : sep = '~'
  · subst ht
    unfold afterHeader
    rw [if_pos rfl]
    rcases scanTo_noStop isPipeChar rest 1025 (fun c hc => by
      simp only [isPipeChar, decide_eq_false_iff_not]
      intro he
      subst he
      exact hr hc) with h | h <;> rw [h]
  · unfold afterHeader
    rw [if_neg ht, if_neg hs]

theorem finishBody_bad (t : Nat) (i p : Option (List Char)) (body : List Char)
    (hne : body ≠ []) (hbad : tryParse body = none) :
    finishBody t i p body = parserError := by
  unfold finishBody
  rw [if_neg hne, hbad]

theorem scanTo_id_noStop_short {idc : List Char} (hne : idc ≠ []) (hlen : idc.length ≤ 33)
    (hstops : ∀ c ∈ idc, isIdStop c = false) (sep : Char) (hsep : isIdStop sep = true)
    (tail : List Char) :
    scanTo isIdStop 33 (idc ++ sep :: tail) = ScanRes.found idc sep tail :=
  scanTo_found isIdStop idc 33 sep tail hlen hstops hsep

theorem badJsonStart_tryParse (body : List Char) (h : badJsonStart body = true) :
    tryParse body = none := by
  have hval : ∀ f, parseVal f body = none := by
    intro f
    cases f with
    | zero => rw [parseVal.eq_def]
    | succ f2 =>
      rw [parseVal.eq_def]
      simp only []
      unfold badJsonStart at h
      cases hs : skipWs body with
      | nil => rfl
      | cons c r =>
        rw [hs] at h
        simp only [] at h
        have hc : jsonValueStart c = false := by simpa using h
        unfold jsonValueStart at hc
        simp only [Bool.or_eq_false_iff, decide_eq_false_iff_not] at hc
        obtain ⟨⟨⟨⟨⟨⟨⟨hbrace, hbrack⟩, hquot⟩, ht⟩, hf⟩, hn⟩, hminus⟩, hdig⟩ := hc
        simp only []
        rw [if_neg hn, if_neg ht, if_neg hf, if_neg hquot, if_neg hbrack, if_neg hbrace]
        rw [readNum.eq_def]
        simp only []
        rw [if_neg hminus]
        unfold numFrom
        rw [if_neg (by simp [hdig])]
        rfl
  unfold tryParse
  rw [hval (body.length + 1)]

theorem wireViolation_perr (s : List Char) (hv : ViolatesWire s)
    (hnt : decodeM s ≠ DRes.thrown) : decodeM s = parserError := by
  rcases hv with h | h | h | h | h | h | h | h | h
  · -- too short
    unfold decodeM
    rw [if_pos h]
  · -- first character neither digit nor whitespace
    obtain ⟨c0, r, hs, hnum⟩ := h
    subst hs
    cases r with
    | nil =>
      unfold decodeM
      rw [if_pos (by simp)]
    | cons c1 r2 =>
      rw [decodeM_cons, hnum]
  · -- type above 4
    obtain ⟨c0, r, t, hs, hnum, ht⟩ := h
    subst hs
    cases r with
    | nil =>
      unfold decodeM
      rw [if_pos (by simp)]
    | cons c1 r2 =>
      rw [decodeM_cons, hnum]
      simp only []
      rw [if_pos ht]
  · -- empty id section
    obtain ⟨c0, r, hs, hr⟩ := h
    subst hs
    rw [decodeM_cons]
    cases hnum : jsCharToNum c0 with
    | none => rfl
    | some t =>
      simp only []
      by_cases ht : 4 < t
      · rw [if_pos ht]
      · rw [if_neg ht, if_pos trivial]
        rcases hr with hr | ⟨sep, r2, hr, hsep⟩
        · subst hr
          rfl
        · subst hr
          rw [show scanTo isIdStop 33 (sep :: r2) = ScanRes.found [] sep r2 from by
            rw [scanTo.eq_def]
            simp [hsep]]
          simp
  · -- id section longer than 33
    obtain ⟨c0, pre, r, hs, hlen, hstops⟩ := h
    subst hs
    rw [decodeM_cons]
    cases hnum : jsCharToNum c0 with
    | none => rfl
    | some t =>
      simp only []
      by_cases ht : 4 < t
      · rw [if_pos ht]
      · rw [if_neg ht, if_pos trivial,
          scanTo_tooLong isIdStop pre 33 r (by omega) hstops]
  · -- empty path section
    obtain ⟨tail, r2, hht, htail⟩ := h
    subst htail
    rcases hht with ⟨c0, hs⟩ | ⟨c0, idc, hs, hne, hlen, hstops⟩
    · subst hs
      rw [decodeM_cons]
      cases hnum : jsCharToNum c0 with
      | none => rfl
      | some t =>
        simp only []
        by_cases ht : 4 < t
        · rw [if_pos ht]
        · rw [if_neg ht, if_neg (by decide), afterHeader_emptyPath]
    · subst hs
      rw [decodeM_cons]
      cases hnum : jsCharToNum c0 with
      | none => rfl
      | some t =>
        simp only []
        by_cases ht : 4 < t
        · rw [if_pos ht]
        · rw [if_neg ht, if_pos trivial,
            scanTo_id_noStop_short hne hlen hstops '~' (by decide)]
          simp only []
          rw [if_neg hne, afterHeader_emptyPath]
  · -- path section longer than 1025 characters of encoded text
    obtain ⟨tail, pre, r, hht, htail, hlen1026, hno⟩ := h
    subst htail
    rcases hht with ⟨c0, hs⟩ | ⟨c0, idc, hs, hne, hlen, hstops⟩
    · subst hs
      rw [decodeM_cons]
      cases hnum : jsCharToNum c0 with
      | none => rfl
      | some t =>
        simp only []
        by_cases ht : 4 < t
        · rw [if_pos ht]
        · rw [if_neg ht, if_neg (by decide), afterHeader_longPath t none pre r hlen1026 hno]
    · subst hs
      rw [decodeM_cons]
      cases hnum : jsCharToNum c0 with
      | none => rfl
      | some t =>
        simp only []
        by_cases ht : 4 < t
        · rw [if_pos ht]
        · rw [if_neg ht, if_pos trivial,
            scanTo_id_noStop_short hne hlen hstops '~' (by decide)]
          simp only []
          rw [if_neg hne, afterHeader_longPath t (some idc) pre r hlen1026 hno]
  · -- no '|' anywhere
    by_cases hl : s.length < 2
    · unfold decodeM
      rw [if_pos hl]
    · obtain ⟨c0, c1, r, hs⟩ : ∃ c0 c1 r, s = c0 :: c1 :: r := by
        cases s with
        | nil => simp at hl
        | cons a s2 =>
          cases s2 with
          | nil => simp at hl
          | cons b s3 => exact ⟨a, b, s3, rfl⟩
      subst hs
      have hc1 : c1 ≠ '|' := fun he => h (by simp [he])
      have hr : '|' ∉ r := fun hm => h (by simp [hm])
      rw [decodeM_cons]
      cases hnum : jsCharToNum c0 with
      | none => rfl
      | some t =>
        simp only []
        by_cases ht : 4 < t
        · rw [if_pos ht]
        · rw [if_neg ht]
          by_cases hdollar : c1 = '$'
          · rw [if_pos hdollar]
            cases hres : scanTo isIdStop 33 r with
            | found idc sep rest2 =>
              obtain ⟨hdec, hsep, _⟩ := scanTo_found_inv isIdStop r 33 idc sep rest2 hres
              have hsep2 : sep ≠ '|' := by
                intro he
                subst he
                exact hr (by rw [hdec]; simp)
              have hrest2 : '|' ∉ rest2 := by
                intro hm
                exact hr (by rw [hdec]; simp [hm])
              simp only []
              by_cases hidc : idc = []
              · rw [if_pos hidc]
              · rw [if_neg hidc, afterHeader_noPipe t (some idc) sep rest2 hsep2 hrest2]
            | tooLong => rfl
            | ended => rfl
          · rw [if_neg hdollar, afterHeader_noPipe t none c1 r hc1 hr]
  · -- body fails JSON parsing
    obtain ⟨body, hhb, hbne, hbad0⟩ := h
    have hbad : tryParse body = none := badJsonStart_tryParse body hbad0
    rcases hhb with ⟨c0, hs⟩ | ⟨c0, idc, hs, hne, hlen, hstops⟩ |
      ⟨c0, pathc, hs, hplen, hpno⟩ | ⟨c0, idc, pathc, hs, hne, hlen, hstops, hplen, hpno⟩
    · subst hs
      rw [decodeM_cons]
      cases hnum : jsCharToNum c0 with
      | none => rfl
      | some t =>
        simp only []
        by_cases ht : 4 < t
        · rw [if_pos ht]
        · rw [if_neg ht, if_neg (by decide), afterHeader_noPath,
            finishBody_bad t none none body hbne hbad]
    · subst hs
      rw [decodeM_cons]
      cases hnum : jsCharToNum c0 with
      | none => rfl
      | some t =>
        simp only []
        by_cases ht : 4 < t
        · rw [if_pos ht]
        · rw [if_neg ht, if_pos trivial,
            scanTo_id_noStop_short hne hlen hstops '|' (by decide)]
          simp only []
          rw [if_neg hne, afterHeader_noPath, finishBody_bad t (some idc) none body hbne hbad]
    · subst hs
      have hafter : decodeM (c0 :: '~' :: (pathc ++ '|' :: body)) = parserError
          ∨ decodeM (c0 :: '~' :: (pathc ++ '|' :: body)) = DRes.thrown := by
        rw [decodeM_cons]
        cases hnum : jsCharToNum c0 with
        | none => left; rfl
        | some t =>
          simp only []
          by_cases ht : 4 < t
          · left; rw [if_pos ht]
          · rw [if_neg ht, if_neg (by decide)]
            unfold afterHeader
            rw [if_pos rfl,
              scanTo_found isPipeChar pathc 1025 '|' body hplen
                (fun c hc => by
                  simp only [isPipeChar, decide_eq_false_iff_not]
                  exact hpno c hc)
                (by simp [isPipeChar])]
            simp only []
            cases hdec : decodeURIM pathc with
            | none => right; rfl
            | some p =>
              simp only []
              by_cases hp : p = []
              · left; rw [if_pos hp]
              · left
                rw [if_neg hp, finishBody_bad t none (some p) body hbne hbad]
      rcases hafter with hafter | hafter
      · exact hafter
      · exact absurd hafter hnt
    · subst hs
      have hafter : decodeM (c0 :: '$' :: (idc ++ '~' :: (pathc ++ '|' :: body)))
          = parserError
          ∨ decodeM (c0 :: '$' :: (idc ++ '~' :: (pathc ++ '|' :: body)))
          = DRes.thrown := by
        rw [decodeM_cons]
        cases hnum : jsCharToNum c0 with
        | none => left; rfl
        | some t =>
          simp only []
          by_cases ht : 4 < t
          · left; rw [if_pos ht]
          · rw [if_neg ht, if_pos trivial,
              scanTo_id_noStop_short hne hlen hstops '~' (by decide)]
            simp only []
            rw [if_neg hne]
            unfold afterHeader
            rw [if_pos rfl,
              scanTo_found isPipeChar pathc 1025 '|' body hplen
                (fun c hc => by
                  simp only [isPipeChar, decide_eq_false_iff_not]
                  exact hpno c hc)
                (by simp [isPipeChar])]
            simp only []
            cases hdec : decodeURIM pathc with
            | none => right; rfl
            | some p =>
              simp only []
              by_cases hp : p = []
              · left; rw [if_pos hp]
              · left
                rw [if_neg hp, finishBody_bad t (some idc) (some p) body hbne hbad]
      rcases hafter with hafter | hafter
      · exact hafter
      · exact absurd hafter hnt

/-- C1: the claim says `decode` never fails or throws on any input,
including strings whose path section contains malformed
percent-encoding.  It is false: the path section is passed to
`decodeURI` with no surrounding try/catch, so the six-character input
`1$a~%|` — whose path section is the malformed escape `%` — makes
`decode` throw a `URIError` instead of returning `ParserError`. -/
theorem c1_decode_throws_on_malformed_percent :
    decodeM ['1', '$', 'a', '~', '%', '|'] = DRes.thrown := rfl

/-- C2 counterexample: the claim says an id section exceeding 32
characters yields `ParserError`, but the length guard runs only after
the separator test, so a 33-character id followed by its terminator is
accepted and decodes to a full Invoke frame. -/
theorem c2_counterexample :
    32 < (List.replicate 33 'a').length
    ∧ decodeM ('1' :: '$' :: (List.replicate 33 'a' ++ '~' :: '/' :: 'x' :: '|' :: []))
        = DRes.msg 1 (some (List.replicate 33 'a')) (some ['/', 'x']) none
    ∧ DRes.msg 1 (some (List.replicate 33 'a')) (some ['/', 'x']) none ≠ parserError := by
  refine ⟨by simp, rfl, ?_⟩
  intro h
  simp [parserError] at h

/-- C2 (amended): for every string violating a validation rule of the
wire format as the code enforces it — length below 2, a first character
that is neither a digit nor a JavaScript whitespace character, a type
value above 4, an id section that is empty or longer than 33
characters, a path section that is empty or longer than 1025 characters
of encoded text, a missing `'|'`, or a nonempty body that is not valid
JSON (stated for bodies `JSON.parse` rejects at their first significant
character, where the modelled parser coincides with it) — `decode`
returns `ParserError`, unless the path section makes `decodeURI`
throw. -/
theorem c2_amended (s : List Char) (hv : ViolatesWire s)
    (hnt : decodeM s ≠ DRes.thrown) : decodeM s = parserError :=
  wireViolation_perr s hv hnt

/-- Witness for C2 (amended) at the concrete input `5|`, which violates
the type rule (5 is above the last known type 4). -/
theorem c2_amended_witness :
    decodeM ['5', '|'] = parserError :=
  c2_amended ['5', '|']
    (Or.inr (Or.inr (Or.inl ⟨'5', ['|'], 5, rfl, by decide, by decide⟩)))
    (fun h => DRes.noConfusion (show DRes.msg 11 none none none = DRes.thrown from h))

set_option maxRecDepth 40000 in
/-- C3 counterexample: the claim bounds the path at 1024 characters
AFTER percent-decoding, but the scanner bounds the ENCODED text, so the
343-character path `/|||…|` (whose encoding `%7C`-expands to 1027
characters) satisfies the claim's constraints for a Publish frame yet
its encoding decodes to `ParserError` rather than a frame with the same
fields. -/
theorem c3_counterexample :
    decodeM (encodeM 4 none none (some ('/' :: List.replicate 342 '|'))) = parserError
    ∧ ('/' :: List.replicate 342 '|') ≠ []
    ∧ ('/' :: List.replicate 342 '|').length ≤ 1024
    ∧ parserError ≠ DRes.msg 4 none (some ('/' :: List.replicate 342 '|')) none := by
  have hrep : ∀ n : Nat, (encodeURIM (List.replicate n '|')).length = 3 * n := by
    intro n
    induction n with
    | zero => rfl
    | succ k ih =>
      rw [List.replicate_succ]
      simp only [encodeURIM, List.map_cons, List.flatten_cons, List.length_append] at ih ⊢
      rw [ih, show (encodeURIChar '|').length = 3 from by decide]
      omega
  have hep : (encodeURIM ('/' :: List.replicate 342 '|')).length = 1027 := by
    simp only [encodeURIM, List.map_cons, List.flatten_cons, List.length_append]
    rw [show (encodeURIChar '/').length = 1 from by decide]
    have := hrep 342
    simp only [encodeURIM] at this
    omega
  have henc : encodeM 4 none none (some ('/' :: List.replicate 342 '|'))
      = '4' :: '~' :: (encodeURIM ('/' :: List.replicate 342 '|') ++ ['|']) := by
    rw [encodeM, natDigits_small (by omega)]
    simp
  have hdec : decodeM (encodeM 4 none none (some ('/' :: List.replicate 342 '|')))
      = parserError := by
    rw [henc, decodeM_cons, show jsCharToNum '4' = some 4 from by decide]
    simp only []
    rw [if_neg (by omega), if_neg (by decide)]
    have hsplit : encodeURIM ('/' :: List.replicate 342 '|') ++ ['|']
        = (encodeURIM ('/' :: List.replicate 342 '|')).take 1026
          ++ ((encodeURIM ('/' :: List.replicate 342 '|')).drop 1026 ++ ['|']) := by
      rw [← List.append_assoc, List.take_append_drop]
    rw [hsplit]
    exact afterHeader_longPath 4 none _ _
      (by rw [List.length_take]; omega)
      (fun c hc => encodeURIM_no_pipe _ c (List.mem_of_mem_take hc))
  refine ⟨hdec, by simp, by simp, ?_⟩
  intro h
  simp [parserError] at h

/-- C3 (amended): for every tuple respecting the per-type constraints,
with a nonempty id of at most 32 id-alphabet characters and a nonempty
path whose percent-ENCODED text is at most 1025 characters,
`decode(encode(type, data, id, path))` yields a frame with exactly the
original type, id, path and data (absent data mapping to an absent body
and back). -/
theorem c3_roundtrip_amended (t : Nat) (i p : Option (List Char)) (d : Option Json)
    (hshape : FrameShape t i p d) (hi : ValidId i) (hp : ValidPathEnc p) :
    decodeM (encodeM t d i p) = DRes.msg t i p d := by
  have ht : t ≤ 4 := by
    rcases hshape with h | h | h | h | h <;> omega
  rw [decodeM_encodeM t ht d i p hi hp]
  rcases hshape with ⟨ht0, hi0, hp0, hd0⟩ | ⟨ht1, hi1, hp1⟩ | ⟨ht2, hi2, hp2⟩ |
    ⟨ht3, hi3, hp3⟩ | ⟨ht4, hi4, hp4⟩
  · subst ht0; subst hi0; subst hp0
    rw [validate.eq_def]
    simp only []
    simp [hd0]
  · subst ht1
    rw [validate.eq_def]
    simp only []
    simp [hi1, hp1]
  · subst ht2; subst hp2
    rw [validate.eq_def]
    simp only []
    simp [hi2]
  · subst ht3; subst hp3
    rw [validate.eq_def]
    simp only []
    simp [hi3]
  · subst ht4; subst hi4
    rw [validate.eq_def]
    simp only []
    simp [hp4]

/-- Witness for C3 (amended) at the concrete Invoke tuple
`(1, no data, id "27", path "/hi")`. -/
theorem c3_roundtrip_amended_witness :
    decodeM (encodeM 1 none (some ['2', '7']) (some ['/', 'h', 'i']))
      = DRes.msg 1 (some ['2', '7']) (some ['/', 'h', 'i']) none :=
  c3_roundtrip_amended 1 (some ['2', '7']) (some ['/', 'h', 'i']) none
    (Or.inr (Or.inl ⟨rfl, by simp, by simp⟩))
    (fun ic hic => by
      injection hic with h
      subst h
      exact ⟨by simp, by simp, by decide⟩)
    (fun pc hpc => by
      injection hpc with h
      subst h
      exact ⟨by simp, by decide⟩)

theorem alookup_aset_self {α : Type} (k : List Char) (v : α) :
    ∀ m, alookup k (aset k v m) = some v := by
  intro m
  induction m with
  | nil => simp [aset, alookup]
  | cons e rest ih =>
    obtain ⟨k2, v2⟩ := e
    by_cases h : k2 = k
    · subst h
      simp [aset, alookup]
    · simp [aset, alookup, h, ih]

theorem alookup_aset_ne {α : Type} (k k2 : List Char) (v : α) (h : k2 ≠ k) :
    ∀ m, alookup k2 (aset k v m) = alookup k2 m := by
  intro m
  induction m with
  | nil => simp [aset, alookup, Ne.symm h]
  | cons e rest ih =>
    obtain ⟨k3, v3⟩ := e
    by_cases h3 : k3 = k
    · subst h3
      simp [aset, alookup, Ne.symm h]
    · simp [aset, alookup, h3, ih]

theorem alookup_adel_self {α : Type} (k : List Char) (m : List (List Char × α)) :
    alookup k (adel k m) = none := by
  induction m with
  | nil => rfl
  | cons e rest ih =>
    obtain ⟨k2, v2⟩ := e
    by_cases h : k2 = k
    · subst h
      simp [adel, ih]
    · simp [adel, h, alookup, ih]

theorem alookup_adel_ne {α : Type} (k k2 : List Char) (h : k2 ≠ k)
    (m : List (List Char × α)) : alookup k2 (adel k m) = alookup k2 m := by
  induction m with
  | nil => rfl
  | cons e rest ih =>
    obtain ⟨k3, v3⟩ := e
    by_cases h3 : k3 = k
    · subst h3
      simp [adel, alookup, Ne.symm h, ih]
    · simp [adel, h3, alookup, ih]

theorem mem_setAdd (x y : List Char) (l : List (List Char)) :
    y ∈ setAdd x l ↔ y = x ∨ y ∈ l := by
  by_cases hx : x ∈ l
  · simp only [setAdd, if_pos hx]
    constructor
    · exact Or.inr
    · rintro (rfl | h)
      · exact hx
      · exact h
  · simp [setAdd, hx, List.mem_cons]

theorem mem_setDel (x y : List Char) (l : List (List Char)) :
    y ∈ setDel x l ↔ y ∈ l ∧ y ≠ x := by
  simp [setDel, List.mem_filter]

theorem getDmem_regDelUpd (p q cid x : List Char) (m : List (List Char × List (List Char))) :
    x ∈ (alookup q (regDelUpd p cid m)).getD [] ↔
      x ∈ (alookup q m).getD [] ∧ ¬(q = p ∧ x = cid) := by
  unfold regDelUpd
  cases hl : alookup p m with
  | none =>
    simp only []
    by_cases hq : q = p
    · subst hq
      rw [hl]
      simp
    · simp [hq]
  | some s =>
    simp only []
    by_cases hm : cid ∈ s
    · rw [if_pos hm]
      by_cases hq : q = p
      · subst hq
        rw [alookup_aset_self, hl]
        simp only [Option.getD_some]
        rw [mem_setDel]
        by_cases hx : x = cid <;> simp [hx]
      · rw [alookup_aset_ne p q _ hq]
        simp [hq]
    · rw [if_neg hm]
      by_cases hq : q = p
      · subst hq
        rw [hl]
        simp only [Option.getD_some]
        constructor
        · intro hx
          exact ⟨hx, fun hc => hm (hc.2 ▸ hx)⟩
        · intro hx
          exact hx.1
      · simp [hq]

theorem regAdd_none (p cid : List Char) (m : List (List Char × List (List Char)))
    (h : regAdd p cid m = none) : cid ∈ (alookup p m).getD [] := by
  unfold regAdd at h
  cases hl : alookup p m with
  | none =>
    rw [hl] at h
    simp only [] at h
    exact Option.noConfusion h
  | some s =>
    rw [hl] at h
    simp only [] at h
    by_cases hm : cid ∈ s
    · simpa using hm
    · rw [if_neg hm] at h
      exact Option.noConfusion h

theorem regAdd_some (p cid : List Char) (m subs2 : List (List Char × List (List Char)))
    (h : regAdd p cid m = some subs2) :
    cid ∉ (alookup p m).getD []
    ∧ subs2 = aset p (setAdd cid ((alookup p m).getD [])) m := by
  unfold regAdd at h
  cases hl : alookup p m with
  | none =>
    rw [hl] at h
    simp only [] at h
    injection h with h2
    refine ⟨by simp, ?_⟩
    rw [← h2]
    simp [setAdd]
  | some s =>
    rw [hl] at h
    simp only [] at h
    by_cases hm : cid ∈ s
    · rw [if_pos hm] at h
      exact Option.noConfusion h
    · rw [if_neg hm] at h
      injection h with h2
      exact ⟨by simpa using hm, h2.symm⟩

theorem subscribeClient_fst (cid p : List Char) (d : InitData) (st : SState) :
    (subscribeClient cid p d st).1
      = match regAdd p cid st.subs with
        | none => st
        | some subs2 =>
          { st with
            subs := subs2
            csubs := aset cid (setAdd p ((alookup cid st.csubs).getD [])) st.csubs } := by
  unfold subscribeClient
  cases regAdd p cid st.subs <;> cases d <;> rfl

theorem unsubscribeClient_pos (cid p : List Char) (st : SState) (s : List (List Char))
    (hs : alookup p st.subs = some s) (hmem : cid ∈ s) :
    (unsubscribeClient cid p st).1
      = { st with
          subs := aset p (setDel cid s) st.subs
          csubs := aset cid (setDel p ((alookup cid st.csubs).getD [])) st.csubs } := by
  unfold unsubscribeClient
  rw [hs]
  simp only []
  rw [if_pos hmem]

theorem foldCsubs (p : List Char) :
    ∀ (s : List (List Char)) (m : List (List Char × List (List Char))) (cid' p' : List Char),
      p' ∈ (alookup cid'
          (s.foldl (fun m c => aset c (setDel p ((alookup c m).getD [])) m) m)).getD []
        ↔ p' ∈ (alookup cid' m).getD [] ∧ ¬(p' = p ∧ cid' ∈ s) := by
  intro s
  induction s with
  | nil =>
    intro m cid' p'
    simp
  | cons c cs ih =>
    intro m cid' p'
    rw [List.foldl_cons, ih]
    by_cases hc : cid' = c
    · subst hc
      rw [alookup_aset_self]
      simp only [Option.getD_some]
      rw [mem_setDel]
      simp only [List.mem_cons]
      constructor
      · intro hx
        exact ⟨hx.1.1, fun hb => hx.1.2 hb.1⟩
      · intro hx
        exact ⟨⟨hx.1, fun hb => hx.2 ⟨hb, Or.inl trivial⟩⟩, fun hb => hx.2 ⟨hb.1, Or.inr hb.2⟩⟩
    · rw [alookup_aset_ne c cid' _ hc]
      simp only [List.mem_cons]
      constructor
      · intro hx
        refine ⟨hx.1, fun hb => hx.2 ⟨hb.1, ?_⟩⟩
        rcases hb.2 with hb2 | hb2
        · exact absurd hb2 hc
        · exact hb2
      · intro hx
        exact ⟨hx.1, fun hb => hx.2 ⟨hb.1, Or.inr hb.2⟩⟩

theorem foldRegDel (cid : List Char) :
    ∀ (paths : List (List Char)) (m : List (List Char × List (List Char))) (q : List Char),
      cid ∈ (alookup q (paths.foldl (fun m p => regDelUpd p cid m) m)).getD []
        ↔ cid ∈ (alookup q m).getD [] ∧ q ∉ paths
  | [], m, q => by simp
  | p :: rest, m, q => by
    rw [List.foldl_cons, foldRegDel cid rest, getDmem_regDelUpd]
    simp only [List.mem_cons]
    constructor
    · intro hx
      refine ⟨hx.1.1, fun hb => ?_⟩
      rcases hb with hb | hb
      · exact hx.1.2 ⟨hb, trivial⟩
      · exact hx.2 hb
    · intro hx
      exact ⟨⟨hx.1, fun hb => hx.2 (Or.inl hb.1)⟩, fun hb => hx.2 (Or.inr hb)⟩

theorem inv_initState : Inv initState := by
  intro cid p
  simp [initState, alookup]

theorem inv_subscribe (st : SState) (cid p : List Char) (d : InitData) (h : Inv st) :
    Inv (subscribeClient cid p d st).1 := by
  rw [subscribeClient_fst]
  cases hr : regAdd p cid st.subs with
  | none => exact h
  | some subs2 =>
    simp only []
    obtain ⟨hnm, hs2⟩ := regAdd_some p cid st.subs subs2 hr
    subst hs2
    intro cid' p'
    by_cases hc : cid' = cid
    · subst hc
      rw [alookup_aset_self]
      simp only [Option.getD_some]
      rw [mem_setAdd]
      by_cases hp : p' = p
      · subst hp
        rw [alookup_aset_self]
        simp only [Option.getD_some]
        rw [mem_setAdd]
        constructor <;> intro _ <;> exact Or.inl (by trivial)
      · rw [alookup_aset_ne p p' _ hp]
        constructor
        · intro hx
          rcases hx with hx | hx
          · exact absurd hx hp
          · exact (h cid' p').mp hx
        · intro hx
          exact Or.inr ((h cid' p').mpr hx)
    · rw [alookup_aset_ne cid cid' _ hc]
      by_cases hp : p' = p
      · subst hp
        rw [alookup_aset_self]
        simp only [Option.getD_some]
        rw [mem_setAdd]
        constructor
        · intro hx
          exact Or.inr ((h cid' p').mp hx)
        · intro hx
          rcases hx with hx | hx
          · exact absurd hx hc
          · exact (h cid' p').mpr hx
      · rw [alookup_aset_ne p p' _ hp]
        exact h cid' p'

theorem inv_unsubscribe (st : SState) (cid p : List Char) (h : Inv st) :
    Inv (unsubscribeClient cid p st).1 := by
  cases hl : alookup p st.subs with
  | none =>
    unfold unsubscribeClient
    rw [hl]
    exact h
  | some s =>
    by_cases hm : cid ∈ s
    · rw [unsubscribeClient_pos cid p st s hl hm]
      intro cid' p'
      by_cases hc : cid' = cid
      · subst hc
        rw [alookup_aset_self]
        simp only [Option.getD_some]
        rw [mem_setDel]
        by_cases hp : p' = p
        · subst hp
          rw [alookup_aset_self]
          simp only [Option.getD_some]
          rw [mem_setDel]
          simp
        · rw [alookup_aset_ne p p' _ hp]
          constructor
          · intro hx
            exact (h cid' p').mp hx.1
          · intro hx
            exact ⟨(h cid' p').mpr hx, hp⟩
      · rw [alookup_aset_ne cid cid' _ hc]
        by_cases hp : p' = p
        · subst hp
          rw [alookup_aset_self]
          simp only [Option.getD_some]
          rw [mem_setDel]
          constructor
          · intro hx
            have hin := (h cid' p').mp hx
            rw [hl] at hin
            exact ⟨by simpa using hin, hc⟩
          · intro hx
            apply (h cid' p').mpr
            rw [hl]
            simpa using hx.1
        · rw [alookup_aset_ne p p' _ hp]
          exact h cid' p'
    · unfold unsubscribeClient
      rw [hl]
      simp only []
      rw [if_neg hm]
      exact h

theorem inv_unsubAll (st : SState) (p : List Char) (h : Inv st) :
    Inv (unsubscribeAll p st).1 := by
  cases hl : alookup p st.subs with
  | none =>
    unfold unsubscribeAll
    rw [hl]
    exact h
  | some s =>
    unfold unsubscribeAll
    rw [hl]
    simp only []
    intro cid' p'
    rw [foldCsubs]
    by_cases hp : p' = p
    · subst hp
      rw [alookup_adel_self]
      simp only [Option.getD_none]
      constructor
      · intro hx
        have hin := (h cid' p').mp hx.1
        rw [hl] at hin
        exact absurd ⟨trivial, by simpa using hin⟩ hx.2
      · intro hx
        exact absurd hx (List.not_mem_nil _)
    · rw [alookup_adel_ne p p' hp]
      constructor
      · intro hx
        exact (h cid' p').mp hx.1
      · intro hx
        exact ⟨(h cid' p').mpr hx, fun hb => hp hb.1⟩

theorem inv_applyOp (st : SState) (op : SOp) (h : Inv st) : Inv (applyOp st op) := by
  cases op with
  | sub cid p d => exact inv_subscribe st cid p d h
  | unsub cid p => exact inv_unsubscribe st cid p h
  | unsubAll p => exact inv_unsubAll st p h

theorem runOps_inv : ∀ (ops : List SOp) (st : SState), Inv st → Inv (runOps ops st)
  | [], _, h => h
  | op :: rest, st, h => runOps_inv rest (applyOp st op) (inv_applyOp st op h)

/-! ### The claims about the server -/

/-- C4 counterexample: connect a client, subscribe it to a path, then
run the disconnect handler — the claim says the client is removed from
`server.clients` in the same step, but `onDisconnect` never touches the
clients map, so the entry is still there. -/
theorem c4_counterexample :
    alookup ['a']
      (onDisconnect ['a']
        ((subscribeClient ['a'] ['/', 'p'] InitData.absent
          ((onConnection ['a'] 0 initState).1)).1)).clients = some 0 := by decide

/-- C4 (amended): when a client's transport closes, `onDisconnect`
removes the client from every subscription set in the registry (given
the bidirectional invariant, its own subscription list covers every
registry entry containing it) — but the client is NOT removed from
`server.clients`, which `onDisconnect` leaves untouched. -/
theorem c4_amended (st : SState) (cid : List Char) (hinv : Inv st) :
    (onDisconnect cid st).clients = st.clients
    ∧ ∀ p, cid ∉ (alookup p (onDisconnect cid st).subs).getD [] := by
  refine ⟨rfl, ?_⟩
  intro p hmem
  unfold onDisconnect at hmem
  simp only [] at hmem
  rw [foldRegDel] at hmem
  exact hmem.2 ((hinv cid p).mpr hmem.1)

/-- Witness for C4 (amended) at the empty server state. -/
theorem c4_amended_witness :
    (onDisconnect ['a'] initState).clients = initState.clients
    ∧ ∀ p, ['a'] ∉ (alookup p (onDisconnect ['a'] initState).subs).getD [] :=
  c4_amended initState ['a'] inv_initState

/-- C5 counterexample: subscribe a client to a path and unsubscribe it
again — the claim says the path's entry is removed with its last
subscriber, but the registry keeps an entry mapping the path to the
empty set. -/
theorem c5_counterexample :
    alookup ['/', 'p']
      ((unsubscribeClient ['a'] ['/', 'p']
        ((subscribeClient ['a'] ['/', 'p'] InitData.absent initState).1)).1).subs
      = some [] := by decide

/-- C5 (amended): when `unsubscribeClient` removes the last subscriber
of a path, the path's registry entry is NOT removed: it remains, mapped
to the empty set (only `unsubscribeAll` deletes entries). -/
theorem c5_amended (st : SState) (cid p : List Char) (s : List (List Char))
    (hs : alookup p st.subs = some s) (hmem : cid ∈ s) (hlast : ∀ x ∈ s, x = cid) :
    alookup p ((unsubscribeClient cid p st).1).subs = some [] := by
  rw [unsubscribeClient_pos cid p st s hs hmem]
  simp only []
  rw [alookup_aset_self]
  have hempty : setDel cid s = [] := by
    simp only [setDel, List.filter_eq_nil_iff]
    intro a ha
    simp [hlast a ha]
  rw [hempty]

/-- Witness for C5 (amended): client `b` is the only subscriber of
`/q`; unsubscribing it leaves the empty entry. -/
theorem c5_amended_witness :
    alookup ['/', 'q']
      ((unsubscribeClient ['b'] ['/', 'q']
        ((subscribeClient ['b'] ['/', 'q'] InitData.absent initState).1)).1).subs
      = some [] :=
  c5_amended ((subscribeClient ['b'] ['/', 'q'] InitData.absent initState).1)
    ['b'] ['/', 'q'] [['b']] (by decide) (by decide) (by decide)

/-- C6: after any sequence of subscribe, unsubscribe and
unsubscribe-all operations from the initial server state, a path is in
a client's own subscription set exactly when the client is in the
path's registry set. -/
theorem c6_bidirectional (ops : List SOp) : Inv (runOps ops initState) :=
  runOps_inv ops initState inv_initState

/-- C7: subscribing a not-yet-subscribed client with a promise-like
`initialData` sends nothing at subscribe time; the registered
resolution callback sends exactly one Publish frame when the client is
still subscribed at resolution time and the resolved value is defined,
and nothing otherwise. -/
theorem c7_promise_initial_data (st : SState) (cid p : List Char) (pid : Nat)
    (hnot : cid ∉ (alookup p st.subs).getD []) :
    (subscribeClient cid p (InitData.promise pid) st).2 = []
    ∧ (∀ (st2 : SState) (v : Json),
        promiseResolveSends st2 cid p (some v)
          = if cid ∈ (alookup p st2.subs).getD []
            then [encodeM 4 (some v) none (some p)]
            else [])
    ∧ ∀ st2 : SState, promiseResolveSends st2 cid p none = [] := by
  refine ⟨?_, ?_, ?_⟩
  · unfold subscribeClient
    cases regAdd p cid st.subs <;> rfl
  · intro st2 v
    unfold promiseResolveSends
    cases hl : alookup p st2.subs with
    | none => simp
    | some s =>
      simp only []
      by_cases hm : cid ∈ s
      · rw [if_pos hm, if_pos (by simpa using hm)]
      · rw [if_neg hm, if_neg (by simpa using hm)]
  · intro st2
    unfold promiseResolveSends
    cases alookup p st2.subs with
    | none => rfl
    | some s =>
      simp only []
      by_cases hm : cid ∈ s
      · rw [if_pos hm]
      · rw [if_neg hm]

/-- Witness for C7 at the empty server state. -/
theorem c7_promise_initial_data_witness :
    (subscribeClient ['a'] ['/', 'p'] (InitData.promise 0) initState).2 = []
    ∧ (∀ (st2 : SState) (v : Json),
        promiseResolveSends st2 ['a'] ['/', 'p'] (some v)
          = if ['a'] ∈ (alookup ['/', 'p'] st2.subs).getD []
            then [encodeM 4 (some v) none (some ['/', 'p'])]
            else [])
    ∧ ∀ st2 : SState, promiseResolveSends st2 ['a'] ['/', 'p'] none = [] :=
  c7_promise_initial_data initState ['a'] ['/', 'p'] 0 (by simp [initState, alookup])

/-- C8: if the error converter throws, the server emits its `error`
signal with the converter's failure and the client is sent an Error
frame whose body is `{status: 500, message: "Internal Server Error"}`
(shown decoding back to exactly that frame); if the converter returns
an object whose `status` is 500, the server emits `invokeError` with
the original error, the client and the invoke message's id. -/
theorem c8_error_converter (err convErr : Nat) (client msgId : List Char) (result : Json)
    (hid : msgId ≠ [] ∧ msgId.length ≤ 32 ∧ ∀ c ∈ msgId, idAlphabet c = true) :
    (onInvokeCatch err client msgId (ConvOutcome.threw convErr)).1
      = [SEmit.serverError convErr]
    ∧ decodeM (onInvokeCatch err client msgId (ConvOutcome.threw convErr)).2
        = DRes.msg 3 (some msgId) none (some internalError500)
    ∧ (is500Obj result = true →
        (onInvokeCatch err client msgId (ConvOutcome.ok result)).1
          = [SEmit.invokeError err client msgId])
    ∧ (is500Obj result = false →
        (onInvokeCatch err client msgId (ConvOutcome.ok result)).1 = []) := by
  refine ⟨rfl, ?_, ?_, ?_⟩
  · show decodeM (encodeM 3 (some internalError500) (some msgId) none) = _
    rw [decodeM_encodeM 3 (by omega) _ _ _
      (fun ic hic => by
        injection hic with h2
        subst h2
        exact hid)
      (fun pc hpc => Option.noConfusion hpc)]
    rw [validate.eq_def]
    simp only []
    simp
  · intro h
    simp [onInvokeCatch, h]
  · intro h
    simp [onInvokeCatch, h]

/-- Witness for C8 with message id `27` and a converted result that
itself carries status 500. -/
theorem c8_error_converter_witness :
    (onInvokeCatch 0 ['c'] ['2', '7'] (ConvOutcome.threw 1)).1 = [SEmit.serverError 1]
    ∧ decodeM (onInvokeCatch 0 ['c'] ['2', '7'] (ConvOutcome.threw 1)).2
        = DRes.msg 3 (some ['2', '7']) none (some internalError500)
    ∧ (is500Obj internalError500 = true →
        (onInvokeCatch 0 ['c'] ['2', '7'] (ConvOutcome.ok internalError500)).1
          = [SEmit.invokeError 0 ['c'] ['2', '7']])
    ∧ (is500Obj internalError500 = false →
        (onInvokeCatch 0 ['c'] ['2', '7'] (ConvOutcome.ok internalError500)).1 = []) :=
  c8_error_converter 0 1 ['c'] ['2', '7'] internalError500
    ⟨by decide, by decide, by decide⟩

/-- C9 counterexample: the claim says ids are generated with retry on
collision, so that no existing clients-map entry is displaced — but
`onConnection` calls the generator once and `Map.set`s the result: with
an existing client of the same id, the entry is displaced (the map
still has a single entry, now holding the new connection). -/
theorem c9_counterexample :
    alookup ['4'] ((onConnection ['4'] 1 (SState.mk [(['4'], 0)] [] [])).1).clients = some 1
    ∧ ((onConnection ['4'] 1 (SState.mk [(['4'], 0)] [] [])).1).clients.length = 1 := by
  constructor <;> decide

/-- C9 (amended): `onConnection` inserts the client under the single
generated id with plain `Map.set` semantics — the new id maps to the
new connection, every other id is untouched (a colliding entry is
displaced, not retried) — and the Welcome frame carrying protocol
version 3 is the one message sent. -/
theorem c9_amended (st : SState) (id : List Char) (ref : Nat) :
    alookup id ((onConnection id ref st).1).clients = some ref
    ∧ (∀ k, k ≠ id → alookup k ((onConnection id ref st).1).clients = alookup k st.clients)
    ∧ (onConnection id ref st).2 = [encodeM 0 (some (Json.jnum 3)) none none]
    ∧ decodeM (encodeM 0 (some (Json.jnum 3)) none none)
        = DRes.msg 0 none none (some (Json.jnum 3)) := by
  refine ⟨?_, ?_, rfl, ?_⟩
  · exact alookup_aset_self id ref st.clients
  · intro k hk
    exact alookup_aset_ne id k ref hk st.clients
  · rw [decodeM_encodeM 0 (by omega) _ _ _
      (fun ic hic => Option.noConfusion hic)
      (fun pc hpc => Option.noConfusion hpc)]
    rw [validate.eq_def]
    simp only []
    simp [isProtocolVersion]

/-- C10: `NydusClient.equals` holds exactly for the same object or an
equal id string, and equal clients have equal hash codes (`hashCode`
reads only the id). -/
theorem c10_equals_hashcode (a b : ClientObj) :
    (clientEquals a b = true ↔ b = a ∨ b.id = a.id)
    ∧ (clientEquals a b = true → hashCode a = hashCode b) := by
  have h1 : clientEquals a b = true ↔ b = a ∨ b.id = a.id := by
    simp [clientEquals]
  refine ⟨h1, ?_⟩
  intro h
  rcases h1.mp h with h2 | h2
  · rw [h2]
  · show smi (stringHash a.id) = smi (stringHash b.id)
    rw [h2]

end Nydus
